import Mathlib

/-!
# Asset amounts, feeds and snapshots of `graphene::chain` (asset_object.cpp)

A shallow embedding of `libraries/chain/asset_object.cpp`:

* `amount_from_string` / `amount_to_string`: decimal text ⇄ integer amounts;
* `max_force_settlement_volume`: the percentage-of-supply settlement cap;
* `update_median_feeds`: aggregation of the published price feeds;
* `backup` / `restore` / `clear` of the dynamic asset data and of the bitasset data.

Strings are lists of characters, machine integers are `Int`/`Nat` with the
range checks of the source written out, and every operation that can throw
returns an `Option`.
-/

namespace graphene.chain

/-! ## Machine integers -/

/-- Largest value of `int64_t`. -/
def INT64_MAX : Int := 9223372036854775807

/-- Smallest value of `int64_t`. -/
def INT64_MIN : Int := -9223372036854775808

/-- Whether an integer is representable as `int64_t`. -/
def in_int64 (v : Int) : Bool := decide (INT64_MIN ≤ v) && decide (v ≤ INT64_MAX)

/-- Addition of `fc::safe<int64_t>`: throws when the sum leaves the 64-bit range. -/
def safe_add (a b : Int) : Option Int :=
  if in_int64 (a + b) then some (a + b) else none

/-- Multiplication of `fc::safe<int64_t>`: throws when the product leaves the 64-bit range. -/
def safe_mul (a b : Int) : Option Int :=
  if in_int64 (a * b) then some (a * b) else none

/-! ## The C and C++ string helpers used by the conversion -/

/-- The `isdigit` of the C locale. -/
def isdigit (c : Char) : Bool := decide (48 ≤ c.toNat) && decide (c.toNat ≤ 57)

/-- The `isspace` of the C locale. -/
def isspace (c : Char) : Bool :=
  c.toNat == 32 || (decide (9 ≤ c.toNat) && decide (c.toNat ≤ 13))

/-- Value of a decimal digit character. -/
def digit_value (c : Char) : Nat := c.toNat - 48

/-- Value of a run of decimal digits, most significant first, continuing from `acc`. -/
def digits_value (acc : Nat) (s : List Char) : Nat :=
  s.foldl (fun v c => 10 * v + digit_value c) acc

/-- The `std::stoll` of base 10: leading white space is skipped, an optional sign is read,
then the longest run of digits; no digit at all is `invalid_argument`, a value outside
`long long` is `out_of_range` (both are `none`). Characters after the digits are ignored. -/
def stoll (s : List Char) : Option Int :=
  let t := s.dropWhile isspace
  let negative := decide (t.head? = some '-')
  let u := if negative || decide (t.head? = some '+') then t.drop 1 else t
  let ds := u.takeWhile isdigit
  if ds.isEmpty then none
  else
    let v : Int := if negative then -(digits_value 0 ds : Int) else (digits_value 0 ds : Int)
    if in_int64 v then some v else none

/-- Decimal print of an integer: `std::to_string` / `fc::to_string` on `int64_t`. -/
def to_string (v : Int) : List Char :=
  if v < 0 then '-' :: Nat.toDigits 10 v.natAbs else Nat.toDigits 10 v.natAbs

/-- The `std::string::find` of a character: `none` stands for `npos`. -/
def find (s : List Char) (c : Char) : Option Nat :=
  match s with
  | [] => none
  | d :: ds => if d = c then some 0 else (find ds c).map (· + 1)

/-- The `std::string::substr(pos, count)`: throws when `pos` is past the end; a count of
`none` (`npos`) or one that runs past the end takes the rest of the string. -/
def substr (s : List Char) (pos : Nat) (count : Option Nat) : Option (List Char) :=
  if s.length < pos then none
  else
    match count with
    | none => some (s.drop pos)
    | some n => some ((s.drop pos).take n)

/-! ## Assets -/

/-- An amount tagged with the asset it is denominated in (`graphene::protocol::asset`). -/
structure asset where
  amount : Int
  asset_id : Nat
  deriving DecidableEq, Repr

/-- The part of `asset_object` the conversions read: its id and its precision. -/
structure asset_object where
  id : Nat
  precision : Nat
  deriving DecidableEq, Repr

/-- Modelled from the spec: `asset::scaled_precision`, whose body is not part of this file.
It is `10^precision`; a precision above 18 has no 64-bit power of ten and throws. -/
def scaled_precision (precision : Nat) : Option Int :=
  if precision < 19 then some ((10 : Int) ^ precision) else none

/-- The character check that opens `amount_from_string`: digits pass, the first `-` and the
first `.` are recorded, anything else throws. Returns `(negative_found, decimal_found)`. -/
def scan_chars : List Char → Bool → Bool → Option (Bool × Bool)
  | [], negative_found, decimal_found => some (negative_found, decimal_found)
  | c :: cs, negative_found, decimal_found =>
    if isdigit c then scan_chars cs negative_found decimal_found
    else if c = '-' ∧ negative_found = false then scan_chars cs true decimal_found
    else if c = '.' ∧ decimal_found = false then scan_chars cs negative_found true
    else none

/-- The fractional part of `amount_from_string`: the text after the `.` must not be longer
than the precision, is padded with `0` on the right and added to `satoshis`. -/
def add_fraction (satoshis scaled : Int) (amount_string : List Char) (decimal_pos : Option Nat) :
    Option Int := do
  let max_rhs_size := ((to_string scaled).drop 1).length
  let rhs ← substr amount_string (match decimal_pos with | some d => d + 1 | none => 0) none
  if rhs.length ≤ max_rhs_size then
    let rhs := rhs ++ List.replicate (max_rhs_size - rhs.length) '0'
    if rhs.isEmpty then some satoshis
    else do
      let r ← stoll rhs
      safe_add satoshis r
  else none

/-- The integer part of `amount_from_string`: a non-empty `lhs` is read by `std::stoll`,
scaled with overflow checks and added to `satoshis`. -/
def add_integer_part (satoshis scaled : Int) (lhs : List Char) : Option Int :=
  if lhs.isEmpty then some satoshis
  else do
    let l ← stoll lhs
    let m ← safe_mul l scaled
    safe_add satoshis m

/-- The `asset_object::amount_from_string`; `max_share_supply` is the constant
`GRAPHENE_MAX_SHARE_SUPPLY`, which is defined outside this file. Every exception of the
source is `none`. -/
def amount_from_string (max_share_supply : Int) (o : asset_object) (amount_string : List Char) :
    Option asset := do
  let (negative_found, decimal_found) ← scan_chars amount_string false false
  let satoshis : Int := 0
  let scaled ← scaled_precision o.precision
  let decimal_pos := find amount_string '.'
  let lhs ← substr amount_string (if negative_found then 1 else 0) decimal_pos
  let satoshis ← add_integer_part satoshis scaled lhs
  let satoshis ← if decimal_found then add_fraction satoshis scaled amount_string decimal_pos
    else some satoshis
  if satoshis ≤ max_share_supply then
    let satoshis ← if negative_found then safe_mul satoshis (-1) else some satoshis
    some ⟨satoshis, o.id⟩
  else none

/-- The `asset_object::amount_to_string`. -/
def amount_to_string (o : asset_object) (amount : Int) : Option (List Char) := do
  let scaled ← scaled_precision o.precision
  let result := to_string (Int.tdiv amount scaled)
  let decimals := (Int.tmod amount scaled).natAbs
  if decimals ≠ 0 then
    let result := if amount < 0 ∧ result = ['0'] then ['-', '0'] else result
    some (result ++ '.' :: (to_string (scaled + decimals)).drop 1)
  else some result

/-! ## Decimal digits -/

/-- The last `p` decimal digits of `d`, most significant first. -/
def frac_digits : Nat → Nat → List Char
  | 0, _ => []
  | p + 1, d => frac_digits p (d / 10) ++ [Nat.digitChar (d % 10)]

/-- The value the source computes from an integer part `I` and a fraction `F`. -/
def parsed_value (p : Nat) (I F : List Char) : Int :=
  (digits_value 0 I : Int) * 10 ^ p + (digits_value 0 F : Int) * 10 ^ (p - F.length)

/-! ## The text produced by `amount_to_string` -/

/-- The text of a non-negative amount `n` at precision `p`: the integer part, and the `p`
fraction digits after a `.` when they are not all zero. -/
def unsigned_text (p n : Nat) : List Char :=
  if n % 10 ^ p = 0 then Nat.toDigits 10 (n / 10 ^ p)
  else Nat.toDigits 10 (n / 10 ^ p) ++ '.' :: frac_digits p (n % 10 ^ p)

/-- The text of an amount as the specification words it: the decimal print of
`amount / 10^p` truncated toward zero (printed as `-0` for a negative amount of magnitude
below `10^p`), followed, when `amount mod 10^p` is not zero, by `.` and the magnitude of that
remainder padded with zeros on the left to `p` digits. -/
def amount_text_spec (p : Nat) (amount : Int) : List Char :=
  let int_part :=
    if amount < 0 ∧ |amount| < 10 ^ p then ['-', '0'] else to_string (Int.tdiv amount (10 ^ p))
  if Int.tmod amount (10 ^ p) ≠ 0 then
    int_part ++ '.' :: List.leftpad p '0' (to_string |Int.tmod amount (10 ^ p)|)
  else int_part

/-! ## Settlement volume cap -/

/-- Modelled from the spec: `GRAPHENE_100_PERCENT`, defined outside this file; percentages
are counted in hundredths of a percent, so 100% is 10000. -/
def GRAPHENE_100_PERCENT : Nat := 10000

/-- Conversion of a signed 64-bit value to `fc::uint128_t` (reduction modulo `2^128`). -/
def to_uint128 (v : Int) : Nat := (v % (2 : Int) ^ 128).toNat

/-- Conversion of an unsigned 64-bit value to `int64_t` (two's complement). -/
def uint64_to_int64 (v : Nat) : Int :=
  if v < 2 ^ 63 then (v : Int) else (v : Int) - (2 : Int) ^ 64

/-- The options of a bitasset that this file reads. -/
structure bitasset_options where
  feed_lifetime_sec : Nat
  minimum_feeds : Nat
  maximum_force_settlement_volume : Nat
  short_backing_asset : Nat
  deriving DecidableEq, Repr

/-- The `asset_bitasset_data_master::max_force_settlement_volume`: the arguments are the
two members it reads and `current_supply`. The 100% branch adds with the overflow check of
`fc::safe`; the general branch computes in `fc::uint128_t` and narrows to 64 bits. -/
def max_force_settlement_volume (options : bitasset_options) (force_settled_volume : Int)
    (current_supply : Int) : Option Int :=
  if options.maximum_force_settlement_volume = 0 then some 0
  else if options.maximum_force_settlement_volume = GRAPHENE_100_PERCENT then
    safe_add current_supply force_settled_volume
  else
    let volume : Nat := to_uint128 current_supply
    let volume := (volume + to_uint128 force_settled_volume) % 2 ^ 128
    let volume := (volume * options.maximum_force_settlement_volume) % 2 ^ 128
    let volume := volume / GRAPHENE_100_PERCENT
    some (uint64_to_int64 (volume % 2 ^ 64))

/-! ## Snapshots of the dynamic asset data -/

/-- Modelled from the spec: the checkpointed amount (`stored_value`), whose class is not part
of this file: an amount together with the asset it is denominated in. -/
structure stored_value where
  asset_id : Nat
  amount : Int
  deriving DecidableEq, Repr

namespace stored_value

/-- Modelled from the spec: "get current" as a typed amount. -/
def get_value (v : stored_value) : asset := ⟨v.amount, v.asset_id⟩

/-- Modelled from the spec: "snapshot for backup", the raw integer. -/
def get_amount (v : stored_value) : Int := v.amount

/-- Modelled from the spec: "restore from backup" replaces the current value with the typed
amount it is given. -/
def restore (_v : stored_value) (backup : asset) : stored_value := ⟨backup.asset_id, backup.amount⟩

/-- Modelled from the spec: "clear to zero". -/
def clear (v : stored_value) : stored_value := { v with amount := 0 }

end stored_value

/-- The `asset_dynamic_data_object`: the fields of its base `asset_dynamic_data_master`
(kept abstract) and the five amounts it reflects beyond the base. -/
structure asset_dynamic_data_object (Master : Type) where
  master : Master
  current_supply : stored_value
  accumulated_fees : stored_value
  fee_pool : stored_value
  confidential_supply : stored_value
  borrowed_fees : stored_value

/-- The `asset_dynamic_data_backup`: a copy of the base and the values taken by its
constructor. -/
structure asset_dynamic_data_backup (Master : Type) where
  master : Master
  current_supply : asset
  accumulated_fees : Int
  fee_pool : Int
  confidential_supply : Int

namespace asset_dynamic_data_object

/-- The `asset_dynamic_data_object::backup`. -/
def backup {Master : Type} (original : asset_dynamic_data_object Master) :
    asset_dynamic_data_backup Master :=
  { master := original.master
    current_supply := original.current_supply.get_value
    accumulated_fees := original.accumulated_fees.get_amount
    fee_pool := original.fee_pool.get_amount
    confidential_supply := original.confidential_supply.get_amount }

/-- The `asset_dynamic_data_object::restore`; an `asset` built from an amount alone carries
the default asset id 0. -/
def restore {Master : Type} (self : asset_dynamic_data_object Master)
    (backup : asset_dynamic_data_backup Master) : asset_dynamic_data_object Master :=
  { master := backup.master
    current_supply := self.current_supply.restore backup.current_supply
    accumulated_fees :=
      self.accumulated_fees.restore ⟨backup.accumulated_fees, backup.current_supply.asset_id⟩
    fee_pool := self.fee_pool.restore ⟨backup.fee_pool, 0⟩
    confidential_supply :=
      self.confidential_supply.restore ⟨backup.confidential_supply, backup.current_supply.asset_id⟩
    borrowed_fees := self.borrowed_fees }

/-- The `asset_dynamic_data_object::clear`. -/
def clear {Master : Type} (self : asset_dynamic_data_object Master) :
    asset_dynamic_data_object Master :=
  { self with
    current_supply := self.current_supply.clear
    accumulated_fees := self.accumulated_fees.clear
    fee_pool := self.fee_pool.clear
    confidential_supply := self.confidential_supply.clear }

/-- The tagging of the amounts that `restore` sets up in every state it produces:
`accumulated_fees` and `confidential_supply` are denominated in the asset of
`current_supply`, and `fee_pool` in the default asset of `asset( amount )`. -/
def well_tagged {Master : Type} (self : asset_dynamic_data_object Master) : Prop :=
  self.accumulated_fees.asset_id = self.current_supply.asset_id ∧
  self.fee_pool.asset_id = 0 ∧
  self.confidential_supply.asset_id = self.current_supply.asset_id

end asset_dynamic_data_object

/-! ## Price feeds -/

/-- The `price_feed` with the fields listed by `GRAPHENE_PRICE_FEED_FIELDS`, in the order of
that list; the type `P` of prices is declared outside this file and is kept abstract. -/
structure price_feed (P : Type) where
  settlement_price : P
  maintenance_collateral_ratio : Nat
  maximum_short_squeeze_ratio : Nat
  core_exchange_rate : P
  deriving DecidableEq, Repr

/-- What `update_median_feeds` uses from outside this file: the order `<` on prices, the
default price `price()`, the default feed `price_feed()`, the member function
`price_feed::maintenance_collateralization`, the constant `HARDFORK_CORE_1270_TIME` and
`std::nth_element`, which takes the comparison, the range and the position `nth`. -/
structure feed_env (P : Type) where
  price_lt : P → P → Bool
  null_price : P
  null_feed : price_feed P
  maintenance_collateralization : price_feed P → P
  HARDFORK_CORE_1270_TIME : Nat
  nth_element : (price_feed P → price_feed P → Bool) → List (price_feed P) → Nat →
    List (price_feed P)

/-- The members of `asset_bitasset_data_master` that this file reads or writes; `feeds` maps
a producer to the time and content of its feed, in key order; times are in seconds. -/
structure asset_bitasset_data_master (P : Type) where
  asset_id : Nat
  options : bitasset_options
  feeds : List (Nat × Nat × price_feed P)
  current_feed : price_feed P
  current_feed_publication_time : Nat
  current_maintenance_collateralization : P
  feed_cer_updated : Bool
  force_settled_volume : Int
  deriving DecidableEq

/-- The test of the loop of `update_median_feeds`: the age in seconds, a signed difference,
is below the lifetime, and the time is not the default `time_point_sec()`. -/
def feed_alive (feed_lifetime_sec current_time : Nat) (f : Nat × Nat × price_feed P) : Bool :=
  decide ((current_time : Int) - (f.2.1 : Int) < (feed_lifetime_sec : Int)) && decide (f.2.1 ≠ 0)

/-- The loop of `update_median_feeds`: the feeds alive at `current_time` are appended to
`current_feeds` and the publication time is lowered to the earliest of their times. -/
def collect_feeds (feed_lifetime_sec current_time : Nat) :
    List (Nat × Nat × price_feed P) → List (price_feed P) × Nat → List (price_feed P) × Nat
  | [], acc => acc
  | f :: fs, (current_feeds, publication_time) =>
    if feed_alive feed_lifetime_sec current_time f then
      collect_feeds feed_lifetime_sec current_time fs
        (current_feeds ++ [f.2.2], min publication_time f.2.1)
    else collect_feeds feed_lifetime_sec current_time fs (current_feeds, publication_time)

/-- The median calculation of `update_median_feeds`: for each field of
`GRAPHENE_PRICE_FEED_FIELDS` in turn, `std::nth_element` rearranges `current_feeds` by that
field and the field is read at `median_itr`; reading at the end of the range is `none`. -/
def median_feed (env : feed_env P) (current_feeds : List (price_feed P)) :
    Option (price_feed P) := do
  let median_feed := env.null_feed
  let median_itr := current_feeds.length / 2
  let current_feeds := env.nth_element
    (fun a b => env.price_lt a.settlement_price b.settlement_price) current_feeds median_itr
  let m ← current_feeds[median_itr]?
  let median_feed := { median_feed with settlement_price := m.settlement_price }
  let current_feeds := env.nth_element
    (fun a b => decide (a.maintenance_collateral_ratio < b.maintenance_collateral_ratio))
    current_feeds median_itr
  let m ← current_feeds[median_itr]?
  let median_feed :=
    { median_feed with maintenance_collateral_ratio := m.maintenance_collateral_ratio }
  let current_feeds := env.nth_element
    (fun a b => decide (a.maximum_short_squeeze_ratio < b.maximum_short_squeeze_ratio))
    current_feeds median_itr
  let m ← current_feeds[median_itr]?
  let median_feed :=
    { median_feed with maximum_short_squeeze_ratio := m.maximum_short_squeeze_ratio }
  let current_feeds := env.nth_element
    (fun a b => env.price_lt a.core_exchange_rate b.core_exchange_rate) current_feeds median_itr
  let m ← current_feeds[median_itr]?
  some { median_feed with core_exchange_rate := m.core_exchange_rate }

/-- The `asset_bitasset_data_master::update_median_feeds`, returning the object after the
call; `none` stands for reading past the end of `current_feeds`. -/
def update_median_feeds [DecidableEq P] (env : feed_env P) (self : asset_bitasset_data_master P)
    (current_time next_maintenance_time : Nat) : Option (asset_bitasset_data_master P) :=
  let after_core_hardfork_1270 := decide (env.HARDFORK_CORE_1270_TIME < next_maintenance_time)
  let collected := collect_feeds self.options.feed_lifetime_sec current_time self.feeds
    ([], current_time)
  let current_feeds := collected.1
  let self := { self with current_feed_publication_time := collected.2 }
  if current_feeds.length < self.options.minimum_feeds then
    some { self with
      feed_cer_updated := false
      current_feed_publication_time := current_time
      current_feed := env.null_feed
      current_maintenance_collateralization :=
        if after_core_hardfork_1270 then env.null_price
        else self.current_maintenance_collateralization }
  else if current_feeds.length = 1 then
    match current_feeds.head? with
    | none => none
    | some front =>
      some { self with
        feed_cer_updated :=
          if self.current_feed.core_exchange_rate ≠ front.core_exchange_rate then true
          else self.feed_cer_updated
        current_feed := front
        current_maintenance_collateralization :=
          if after_core_hardfork_1270 then env.maintenance_collateralization front
          else self.current_maintenance_collateralization }
  else
    match median_feed env current_feeds with
    | none => none
    | some median =>
      some { self with
        feed_cer_updated :=
          if self.current_feed.core_exchange_rate ≠ median.core_exchange_rate then true
          else self.feed_cer_updated
        current_feed := median
        current_maintenance_collateralization :=
          if after_core_hardfork_1270 then env.maintenance_collateralization median
          else self.current_maintenance_collateralization }

/-- The ordering `std::nth_element` requires of its comparison: a strict weak ordering. -/
def strict_weak_order {α : Type} (lt : α → α → Bool) : Prop :=
  (∀ a, lt a a = false) ∧
  (∀ a b c, lt a b = true → lt b c = true → lt a c = true) ∧
  (∀ a b c, lt a c = true → lt a b = true ∨ lt b c = true)

/-- The contract of `std::nth_element` for a strict weak ordering and a position within the
range (the end included): the range is permuted, the element at position `nth` is the one
that would be there if the range were sorted, and no element from position `nth` on is less
than an element before position `nth`. -/
def nth_element_contract {α : Type} (nth_element : (α → α → Bool) → List α → Nat → List α) :
    Prop :=
  ∀ (lt : α → α → Bool) (l : List α) (nth : Nat), strict_weak_order lt → nth ≤ l.length →
    (nth_element lt l nth).Perm l ∧
    (∃ s : List α, s.Perm l ∧ s.Pairwise (fun a b => lt b a = false) ∧
      s[nth]? = (nth_element lt l nth)[nth]?) ∧
    ∀ x ∈ (nth_element lt l nth).take nth, ∀ y ∈ (nth_element lt l nth).drop nth, lt y x = false

/-- That `x` stands at index `k` when `column` is sorted ascending by `lt`. -/
def ascending_pick {α : Type} (lt : α → α → Bool) (column : List α) (k : Nat) (x : α) : Prop :=
  ∃ s : List α, s.Perm column ∧ s.Pairwise (fun a b => lt b a = false) ∧ s[k]? = some x

/-- An `nth_element` that sorts the whole range by insertion. -/
def sort_nth_element {α : Type} (lt : α → α → Bool) (l : List α) (_nth : Nat) : List α :=
  l.insertionSort (fun a b => lt b a = false)

/-- A sample environment over natural-number prices: the usual order, zero defaults, the
settlement price as maintenance collateralization, and `sort_nth_element`. -/
def sample_env : feed_env Nat :=
  { price_lt := fun a b => decide (a < b)
    null_price := 0
    null_feed := ⟨0, 0, 0, 0⟩
    maintenance_collateralization := fun f => f.settlement_price
    HARDFORK_CORE_1270_TIME := 1000
    nth_element := sort_nth_element }

/-- The surviving feeds: the entries of the feed map that pass `feed_alive`. -/
def live_entries (self : asset_bitasset_data_master P) (current_time : Nat) :
    List (Nat × Nat × price_feed P) :=
  self.feeds.filter (feed_alive self.options.feed_lifetime_sec current_time)

/-- The feeds that survive the filter of `update_median_feeds`, in the order of the map. -/
def survivors (self : asset_bitasset_data_master P) (current_time : Nat) : List (price_feed P) :=
  (live_entries self current_time).map (fun f => f.2.2)

/-! ## Texts without redundant leading zeros -/

/-- A digit run without its redundant leading zeros: a leading `0` is dropped as long as
another digit follows it. -/
def strip_leading_zeros : List Char → List Char
  | [] => []
  | [c] => [c]
  | c :: d :: cs =>
    if c = '0' ∧ isdigit d = true then strip_leading_zeros (d :: cs) else c :: d :: cs

/-- A decimal text with the redundant leading zeros of its integer part removed; a leading
`-` stays in place. -/
def without_leading_zeros : List Char → List Char
  | [] => []
  | c :: cs => if c = '-' then '-' :: strip_leading_zeros cs else strip_leading_zeros (c :: cs)

/-- The fraction as `amount_to_string` prints it back for a fraction text `F` read at
precision `p`: nothing when all digits of `F` are zero, otherwise `.` and `F` padded with
zeros on the right to `p` digits. -/
def printed_fraction (p : Nat) (F : List Char) : List Char :=
  if digits_value 0 F = 0 then [] else '.' :: (F ++ List.replicate (p - F.length) '0')

/-- The text `amount_to_string` gives for the amount that `amount_from_string` read from `s`. -/
def format_after_parse (max_share_supply : Int) (o : asset_object) (s : List Char) :
    Option (List Char) :=
  (amount_from_string max_share_supply o s).bind (fun a => amount_to_string o a.amount)

/-! ## Snapshots of the bitasset data -/

/-- The `asset_bitasset_data_object`: its base `asset_bitasset_data_master` and the two
amounts it reflects beyond the base. -/
structure asset_bitasset_data_object (P : Type) where
  master : asset_bitasset_data_master P
  settlement_fund : stored_value
  total_debt : stored_value

/-- The `asset_bitasset_data_backup`: a copy of the base and the two raw amounts taken by
its constructor. -/
structure asset_bitasset_data_backup (P : Type) where
  master : asset_bitasset_data_master P
  settlement_fund : Int
  total_debt : Int

namespace asset_bitasset_data_object

/-- The `asset_bitasset_data_object::backup`. -/
def backup {P : Type} (original : asset_bitasset_data_object P) : asset_bitasset_data_backup P :=
  { master := original.master
    settlement_fund := original.settlement_fund.get_amount
    total_debt := original.total_debt.get_amount }

/-- The `asset_bitasset_data_object::restore`. -/
def restore {P : Type} (self : asset_bitasset_data_object P)
    (backup : asset_bitasset_data_backup P) : asset_bitasset_data_object P :=
  { master := backup.master
    settlement_fund :=
      self.settlement_fund.restore ⟨backup.settlement_fund, backup.master.options.short_backing_asset⟩
    total_debt := self.total_debt.restore ⟨backup.total_debt, backup.master.asset_id⟩ }

/-- The `asset_bitasset_data_object::clear`. -/
def clear {P : Type} (self : asset_bitasset_data_object P) : asset_bitasset_data_object P :=
  { self with
    settlement_fund := self.settlement_fund.clear
    total_debt := self.total_debt.clear }

end asset_bitasset_data_object

/-! # Theorems -/

theorem toDigitsCore_eq_digits (fuel : Nat) : ∀ (n : Nat) (acc : List Char), n < fuel → 0 < n →
    Nat.toDigitsCore 10 fuel n acc = ((Nat.digits 10 n).reverse.map Nat.digitChar) ++ acc := by
  induction fuel with
  | zero => intro n acc h; omega
  | succ fuel ih =>
    intro n acc hlt hpos
    rw [Nat.digits_def' (by norm_num) hpos]
    simp only [Nat.toDigitsCore]
    by_cases h0 : n / 10 = 0
    · simp [h0]
    · rw [if_neg h0, ih (n / 10) _ (by omega) (by omega)]
      simp

theorem toDigits_small (n : Nat) (h : n < 10) : Nat.toDigits 10 n = [Nat.digitChar n] := by
  interval_cases n <;> rfl

theorem toDigits_step (n : Nat) (h : 10 ≤ n) :
    Nat.toDigits 10 n = Nat.toDigits 10 (n / 10) ++ [Nat.digitChar (n % 10)] := by
  have h1 : Nat.toDigits 10 n = ((Nat.digits 10 n).reverse.map Nat.digitChar) := by
    have := toDigitsCore_eq_digits (n + 1) n [] (by omega) (by omega)
    simpa [Nat.toDigits] using this
  have h2 : Nat.toDigits 10 (n / 10) = ((Nat.digits 10 (n / 10)).reverse.map Nat.digitChar) := by
    have := toDigitsCore_eq_digits (n / 10 + 1) (n / 10) [] (by omega) (by omega)
    simpa [Nat.toDigits] using this
  rw [h1, h2, Nat.digits_def' (by norm_num) (by omega : 0 < n)]
  simp

theorem isdigit_digitChar (d : Nat) (h : d < 10) : isdigit (Nat.digitChar d) = true := by
  interval_cases d <;> rfl

theorem digit_value_digitChar (d : Nat) (h : d < 10) : digit_value (Nat.digitChar d) = d := by
  interval_cases d <;> rfl

theorem toDigits_ne_nil (n : Nat) : Nat.toDigits 10 n ≠ [] := by
  by_cases h : n < 10
  · rw [toDigits_small n h]; simp
  · rw [toDigits_step n (by omega)]; simp

theorem isdigit_toDigits (n : Nat) : ∀ c ∈ Nat.toDigits 10 n, isdigit c = true := by
  induction n using Nat.strong_induction_on with
  | _ n ih =>
    by_cases h : n < 10
    · rw [toDigits_small n h]
      intro c hc
      simp only [List.mem_singleton] at hc
      subst hc
      exact isdigit_digitChar n h
    · rw [toDigits_step n (by omega)]
      intro c hc
      rcases List.mem_append.mp hc with hc | hc
      · exact ih (n / 10) (by omega) c hc
      · simp only [List.mem_singleton] at hc
        subst hc
        exact isdigit_digitChar _ (Nat.mod_lt _ (by norm_num))

theorem digits_value_append (acc : Nat) (s t : List Char) :
    digits_value acc (s ++ t) = digits_value (digits_value acc s) t := by
  simp [digits_value, List.foldl_append]

theorem digits_value_toDigits (n : Nat) : digits_value 0 (Nat.toDigits 10 n) = n := by
  induction n using Nat.strong_induction_on with
  | _ n ih =>
    by_cases h : n < 10
    · rw [toDigits_small n h]
      simp [digits_value, digit_value_digitChar n h]
    · rw [toDigits_step n (by omega), digits_value_append, ih (n / 10) (by omega)]
      simp only [digits_value, List.foldl_cons, List.foldl_nil]
      rw [digit_value_digitChar _ (Nat.mod_lt _ (by norm_num))]
      omega

theorem toDigits_pow_add (p : Nat) : ∀ d, d < 10 ^ p →
    Nat.toDigits 10 (10 ^ p + d) = '1' :: frac_digits p d := by
  induction p with
  | zero => intro d hd; simp at hd; subst hd; rfl
  | succ p ih =>
    intro d hd
    have hp : 0 < 10 ^ p := by positivity
    have hge : 10 ≤ 10 ^ (p + 1) + d := by rw [pow_succ]; omega
    rw [toDigits_step _ hge]
    have e1 : (10 ^ (p + 1) + d) / 10 = 10 ^ p + d / 10 := by rw [pow_succ]; omega
    have e2 : (10 ^ (p + 1) + d) % 10 = d % 10 := by rw [pow_succ]; omega
    rw [e1, e2, ih (d / 10) (by rw [pow_succ] at hd; omega)]
    simp [frac_digits]

theorem length_frac_digits (p : Nat) : ∀ d, (frac_digits p d).length = p := by
  induction p with
  | zero => intro d; rfl
  | succ p ih => intro d; simp [frac_digits, ih]

theorem isdigit_frac_digits (p : Nat) : ∀ d, ∀ c ∈ frac_digits p d, isdigit c = true := by
  induction p with
  | zero => intro d c hc; simp [frac_digits] at hc
  | succ p ih =>
    intro d c hc
    simp only [frac_digits] at hc
    rcases List.mem_append.mp hc with hc | hc
    · exact ih _ c hc
    · simp only [List.mem_singleton] at hc
      subst hc
      exact isdigit_digitChar _ (Nat.mod_lt _ (by norm_num))

theorem digits_value_frac_digits (p : Nat) : ∀ d acc, d < 10 ^ p →
    digits_value acc (frac_digits p d) = acc * 10 ^ p + d := by
  induction p with
  | zero => intro d acc hd; simp at hd; subst hd; simp [frac_digits, digits_value]
  | succ p ih =>
    intro d acc hd
    simp only [frac_digits]
    rw [digits_value_append, ih (d / 10) acc (by rw [pow_succ] at hd; omega)]
    simp only [digits_value, List.foldl_cons, List.foldl_nil]
    rw [digit_value_digitChar _ (Nat.mod_lt _ (by norm_num)), pow_succ]
    have : d = 10 * (d / 10) + d % 10 := by omega
    nlinarith [this]

/-! ## The string helpers on digit runs -/

theorem isdigit_not_special (c : Char) (h : isdigit c = true) :
    isspace c = false ∧ c ≠ '-' ∧ c ≠ '+' ∧ c ≠ '.' := by
  refine ⟨?_, ?_, ?_, ?_⟩
  · simp only [isdigit, isspace, Bool.and_eq_true, decide_eq_true_eq] at h ⊢
    simp only [Bool.or_eq_false_iff, beq_eq_false_iff_ne, ne_eq, Bool.and_eq_false_iff,
      decide_eq_false_iff_not]
    omega
  · rintro rfl; revert h; decide
  · rintro rfl; revert h; decide
  · rintro rfl; revert h; decide

theorem takeWhile_isdigit_append (ds rest : List Char) (hds : ∀ c ∈ ds, isdigit c = true)
    (hrest : ∀ c, rest.head? = some c → isdigit c = false) :
    (ds ++ rest).takeWhile isdigit = ds := by
  induction ds with
  | nil =>
    cases rest with
    | nil => rfl
    | cons r rs => simp [List.takeWhile, hrest r rfl]
  | cons d ds ih =>
    rw [List.cons_append, List.takeWhile_cons, hds d (List.mem_cons_self _ _), if_pos rfl,
      ih (fun c hc => hds c (List.mem_cons_of_mem _ hc))]

theorem stoll_digits (ds rest : List Char) (hne : ds ≠ []) (hds : ∀ c ∈ ds, isdigit c = true)
    (hrest : ∀ c, rest.head? = some c → isdigit c = false) :
    stoll (ds ++ rest) =
      if in_int64 (digits_value 0 ds : Int) then some (digits_value 0 ds : Int) else none := by
  cases ds with
  | nil => exact absurd rfl hne
  | cons d ds =>
    have hd := isdigit_not_special d (hds d (List.mem_cons_self _ _))
    have htw := takeWhile_isdigit_append (d :: ds) rest hds hrest
    have hdw : (d :: ds ++ rest).dropWhile isspace = d :: ds ++ rest := by
      rw [List.cons_append, List.dropWhile_cons, hd.1]
      rfl
    unfold stoll
    simp only [hdw]
    simp only [List.cons_append, List.head?_cons, Option.some.injEq,
      hd.2.1, hd.2.2.1, decide_False, Bool.or_self, Bool.false_eq_true, if_false]
    rw [← List.cons_append, htw]
    simp

theorem digits_value_replicate_zero (k acc : Nat) :
    digits_value acc (List.replicate k '0') = acc * 10 ^ k := by
  induction k generalizing acc with
  | zero => simp [digits_value]
  | succ k ih =>
    have h0 : digit_value '0' = 0 := rfl
    have : digits_value acc (List.replicate (k + 1) '0') =
        digits_value (10 * acc + digit_value '0') (List.replicate k '0') := rfl
    rw [this, ih, h0, pow_succ]
    ring

theorem digits_value_lt (s : List Char) (hs : ∀ c ∈ s, isdigit c = true) :
    ∀ acc, digits_value acc s < (acc + 1) * 10 ^ s.length := by
  induction s with
  | nil => intro acc; simp [digits_value]
  | cons c cs ih =>
    intro acc
    have hc := hs c (List.mem_cons_self _ _)
    have hv : digit_value c ≤ 9 := by
      simp only [isdigit, Bool.and_eq_true, decide_eq_true_eq] at hc
      simp only [digit_value]
      omega
    have : digits_value acc (c :: cs) = digits_value (10 * acc + digit_value c) cs := rfl
    rw [this]
    have h1 := ih (fun x hx => hs x (List.mem_cons_of_mem _ hx)) (10 * acc + digit_value c)
    have h2 : (10 * acc + digit_value c + 1) * 10 ^ cs.length ≤ (acc + 1) * 10 ^ (cs.length + 1) := by
      rw [pow_succ]
      have : 10 * acc + digit_value c + 1 ≤ (acc + 1) * 10 := by omega
      calc (10 * acc + digit_value c + 1) * 10 ^ cs.length
          ≤ ((acc + 1) * 10) * 10 ^ cs.length := Nat.mul_le_mul_right _ this
        _ = (acc + 1) * (10 ^ cs.length * 10) := by ring
    simpa using lt_of_lt_of_le h1 h2

theorem find_cons (d c : Char) (ds : List Char) :
    find (d :: ds) c = if d = c then some 0 else (find ds c).map (· + 1) := rfl

theorem scan_chars_digits (ds rest : List Char) (hds : ∀ c ∈ ds, isdigit c = true) (n d : Bool) :
    scan_chars (ds ++ rest) n d = scan_chars rest n d := by
  induction ds with
  | nil => rfl
  | cons c cs ih =>
    simp only [List.cons_append, scan_chars, hds c (List.mem_cons_self _ _), if_true]
    exact ih (fun x hx => hds x (List.mem_cons_of_mem _ hx))

theorem find_digits_dot (ds rest : List Char) (hds : ∀ c ∈ ds, isdigit c = true) :
    find (ds ++ '.' :: rest) '.' = some ds.length := by
  induction ds with
  | nil => simp [find]
  | cons c cs ih =>
    have hc := (isdigit_not_special c (hds c (List.mem_cons_self _ _))).2.2.2
    rw [List.cons_append, find_cons, if_neg hc, ih (fun x hx => hds x (List.mem_cons_of_mem _ hx))]
    rfl

theorem find_digits_none (ds : List Char) (hds : ∀ c ∈ ds, isdigit c = true) :
    find ds '.' = none := by
  induction ds with
  | nil => rfl
  | cons c cs ih =>
    have hc := (isdigit_not_special c (hds c (List.mem_cons_self _ _))).2.2.2
    rw [find_cons, if_neg hc, ih (fun x hx => hds x (List.mem_cons_of_mem _ hx))]
    rfl

theorem max_rhs_size_eq (p : Nat) : ((to_string ((10 : Int) ^ p)).drop 1).length = p := by
  have h : ¬ ((10 : Int) ^ p < 0) := not_lt.mpr (by positivity)
  have e : ((10 : Int) ^ p).natAbs = 10 ^ p + 0 := by simp [Int.natAbs_pow]
  rw [to_string, if_neg h, e, toDigits_pow_add p 0 (by positivity)]
  simp [length_frac_digits]

/-! ## Parsing a well-formed decimal text -/

theorem in_int64_of_bounds (v : Int) (h0 : 0 ≤ v) (h1 : v ≤ INT64_MAX) : in_int64 v = true := by
  simp only [in_int64, INT64_MIN, INT64_MAX, Bool.and_eq_true, decide_eq_true_eq] at h1 ⊢
  omega

theorem in_int64_neg_of_bounds (v : Int) (h0 : 0 ≤ v) (h1 : v ≤ INT64_MAX) :
    in_int64 (v * -1) = true := by
  simp only [in_int64, INT64_MIN, INT64_MAX, Bool.and_eq_true, decide_eq_true_eq] at h1 ⊢
  omega

theorem safe_mul_neg_one (v : Int) (h0 : 0 ≤ v) (h1 : v ≤ INT64_MAX) :
    safe_mul v (-1) = some (-v) := by
  unfold safe_mul
  rw [if_pos (in_int64_neg_of_bounds v h0 h1)]
  simp

theorem lhs_value (I rest : List Char) (p : Nat) (hI : I ≠ []) (hId : ∀ c ∈ I, isdigit c = true)
    (hrest : ∀ c, rest.head? = some c → isdigit c = false)
    (hv : (digits_value 0 I : Int) * 10 ^ p ≤ INT64_MAX) :
    add_integer_part 0 ((10 : Int) ^ p) (I ++ rest) = some ((digits_value 0 I : Int) * 10 ^ p) := by
  have hne : (I ++ rest).isEmpty = false := by
    cases I with
    | nil => exact absurd rfl hI
    | cons c cs => rfl
  have hpow : (1 : Int) ≤ 10 ^ p := one_le_pow₀ (by norm_num)
  have hnn : (0 : Int) ≤ (digits_value 0 I : Int) := Int.natCast_nonneg _
  have hle : (digits_value 0 I : Int) ≤ (digits_value 0 I : Int) * 10 ^ p :=
    le_mul_of_one_le_right hnn hpow
  have h1 : in_int64 (digits_value 0 I : Int) = true :=
    in_int64_of_bounds _ hnn (le_trans hle hv)
  have h2 : in_int64 ((digits_value 0 I : Int) * 10 ^ p) = true :=
    in_int64_of_bounds _ (mul_nonneg hnn (by positivity)) hv
  unfold add_integer_part
  rw [hne, stoll_digits I rest hI hId hrest, if_pos h1]
  simp [safe_mul, safe_add, h2]

theorem add_fraction_value (sat : Int) (p k : Nat) (s F : List Char)
    (hk : k + 1 ≤ s.length) (hF : s.drop (k + 1) = F)
    (hFd : ∀ c ∈ F, isdigit c = true) (hlen : F.length ≤ p)
    (h0 : 0 ≤ sat) (hv : sat + (digits_value 0 F : Int) * 10 ^ (p - F.length) ≤ INT64_MAX) :
    add_fraction sat ((10 : Int) ^ p) s (some k) =
      some (sat + (digits_value 0 F : Int) * 10 ^ (p - F.length)) := by
  have hsub : substr s (k + 1) none = some F := by
    simp only [substr, hF]
    rw [if_neg (by omega)]
  have hval : digits_value 0 (F ++ List.replicate (p - F.length) '0') =
      digits_value 0 F * 10 ^ (p - F.length) := by
    rw [digits_value_append, digits_value_replicate_zero]
  have hnn : (0 : Int) ≤ (digits_value 0 F : Int) * 10 ^ (p - F.length) :=
    mul_nonneg (Int.natCast_nonneg _) (by positivity)
  simp only [add_fraction, max_rhs_size_eq, hsub, Option.bind_eq_bind, Option.some_bind, hlen,
    if_true]
  by_cases hemp : (F ++ List.replicate (p - F.length) '0').isEmpty = true
  · rw [if_pos hemp]
    have hnil : F ++ List.replicate (p - F.length) '0' = [] := List.isEmpty_iff.mp hemp
    have h1 : digits_value 0 F * 10 ^ (p - F.length) = 0 := by
      rw [← hval, hnil]; rfl
    have h2 : (digits_value 0 F : Int) * 10 ^ (p - F.length) = 0 := by exact_mod_cast h1
    rw [h2, add_zero]
  · rw [if_neg hemp]
    have hne : F ++ List.replicate (p - F.length) '0' ≠ [] := fun h => hemp (by rw [h]; rfl)
    have hd : ∀ c ∈ F ++ List.replicate (p - F.length) '0', isdigit c = true := by
      intro c hc
      rcases List.mem_append.mp hc with hc | hc
      · exact hFd c hc
      · rw [(List.mem_replicate.mp hc).2]; rfl
    have hst := stoll_digits (F ++ List.replicate (p - F.length) '0') [] hne hd
      (fun c hc => by simp at hc)
    rw [List.append_nil] at hst
    have hcast : ((digits_value 0 (F ++ List.replicate (p - F.length) '0') : Nat) : Int) =
        (digits_value 0 F : Int) * 10 ^ (p - F.length) := by
      rw [hval]; push_cast; ring
    rw [hst, hcast]
    have hr : in_int64 ((digits_value 0 F : Int) * 10 ^ (p - F.length)) = true :=
      in_int64_of_bounds _ hnn (by linarith)
    have hsum : in_int64 (sat + (digits_value 0 F : Int) * 10 ^ (p - F.length)) = true :=
      in_int64_of_bounds _ (by linarith) hv
    simp [hr, safe_add, hsum]

theorem scaled_precision_eq (p : Nat) (hp : p ≤ 18) :
    scaled_precision p = some ((10 : Int) ^ p) := by
  simp only [scaled_precision]
  rw [if_pos (by omega)]

theorem parsed_value_bounds (p : Nat) (I F : List Char) :
    0 ≤ (digits_value 0 I : Int) * 10 ^ p ∧
    (digits_value 0 I : Int) * 10 ^ p ≤ parsed_value p I F := by
  have h1 : (0 : Int) ≤ (digits_value 0 I : Int) * 10 ^ p :=
    mul_nonneg (Int.natCast_nonneg _) (by positivity)
  have h2 : (0 : Int) ≤ (digits_value 0 F : Int) * 10 ^ (p - F.length) :=
    mul_nonneg (Int.natCast_nonneg _) (by positivity)
  exact ⟨h1, by simp only [parsed_value]; linarith⟩

theorem from_string_int_frac (M : Int) (o : asset_object) (I F : List Char)
    (hp : o.precision ≤ 18) (hI : I ≠ []) (hId : ∀ c ∈ I, isdigit c = true)
    (hFd : ∀ c ∈ F, isdigit c = true) (hF : F.length ≤ o.precision)
    (hM : M ≤ INT64_MAX) (hv : parsed_value o.precision I F ≤ M) :
    amount_from_string M o (I ++ '.' :: F) = some ⟨parsed_value o.precision I F, o.id⟩ := by
  have hb := parsed_value_bounds o.precision I F
  have hscan : scan_chars (I ++ '.' :: F) false false = some (false, true) := by
    rw [scan_chars_digits I _ hId]
    have : scan_chars ('.' :: F) false false = scan_chars F false true := by
      simp [scan_chars, show isdigit '.' = false from rfl]
    rw [this]
    have := scan_chars_digits F [] hFd false true
    rw [List.append_nil] at this
    rw [this]; rfl
  have hsub : substr (I ++ '.' :: F) 0 (some I.length) = some (I ++ []) := by
    simp [substr]
  have hlhs := lhs_value I [] o.precision hI hId (fun c hc => by simp at hc)
    (le_trans hb.2 (le_trans hv hM))
  have hfr := add_fraction_value ((digits_value 0 I : Int) * 10 ^ o.precision) o.precision I.length
    (I ++ '.' :: F) F (by simp) (by simp) hFd hF hb.1
    (le_trans hv hM)
  simp only [amount_from_string, hscan, scaled_precision_eq _ hp, find_digits_dot I F hId,
    Option.bind_eq_bind, Option.some_bind, Bool.false_eq_true, if_false, hsub]
  rw [hlhs]
  simp only [Option.some_bind, if_true, hfr]
  simp only [parsed_value] at hv ⊢
  rw [if_pos hv]

theorem from_string_neg_int_frac (M : Int) (o : asset_object) (I F : List Char)
    (hp : o.precision ≤ 18) (hI : I ≠ []) (hId : ∀ c ∈ I, isdigit c = true)
    (hFd : ∀ c ∈ F, isdigit c = true) (hF : F.length ≤ o.precision)
    (hM : M ≤ INT64_MAX) (hv : parsed_value o.precision I F ≤ M) :
    amount_from_string M o ('-' :: (I ++ '.' :: F)) =
      some ⟨-parsed_value o.precision I F, o.id⟩ := by
  have hb := parsed_value_bounds o.precision I F
  have hscan : scan_chars ('-' :: (I ++ '.' :: F)) false false = some (true, true) := by
    have h0 : scan_chars ('-' :: (I ++ '.' :: F)) false false =
        scan_chars (I ++ '.' :: F) true false := by
      simp [scan_chars, show isdigit '-' = false from rfl]
    rw [h0, scan_chars_digits I _ hId]
    have : scan_chars ('.' :: F) true false = scan_chars F true true := by
      simp [scan_chars, show isdigit '.' = false from rfl]
    rw [this]
    have := scan_chars_digits F [] hFd true true
    rw [List.append_nil] at this
    rw [this]; rfl
  have hfind : find ('-' :: (I ++ '.' :: F)) '.' = some (I.length + 1) := by
    rw [find_cons, if_neg (by decide), find_digits_dot I F hId]
    rfl
  have hsub : substr ('-' :: (I ++ '.' :: F)) 1 (some (I.length + 1)) = some (I ++ ['.']) := by
    simp [substr, List.take_append_eq_append_take]
  have hlhs := lhs_value I ['.'] o.precision hI hId
    (fun c hc => by simp at hc; subst hc; rfl) (le_trans hb.2 (le_trans hv hM))
  have hfr := add_fraction_value ((digits_value 0 I : Int) * 10 ^ o.precision) o.precision
    (I.length + 1) ('-' :: (I ++ '.' :: F)) F (by simp) (by simp) hFd hF hb.1
    (le_trans hv hM)
  have hneg := safe_mul_neg_one _ (le_trans hb.1 hb.2) (le_trans hv hM)
  simp only [amount_from_string, hscan, scaled_precision_eq _ hp, hfind,
    Option.bind_eq_bind, Option.some_bind, if_true, hsub]
  rw [hlhs]
  simp only [Option.some_bind, hfr]
  simp only [parsed_value] at hv hneg ⊢
  rw [if_pos hv, hneg]
  rfl

theorem from_string_int (M : Int) (o : asset_object) (I : List Char)
    (hp : o.precision ≤ 18) (hI : I ≠ []) (hId : ∀ c ∈ I, isdigit c = true)
    (hM : M ≤ INT64_MAX) (hv : (digits_value 0 I : Int) * 10 ^ o.precision ≤ M) :
    amount_from_string M o I = some ⟨(digits_value 0 I : Int) * 10 ^ o.precision, o.id⟩ := by
  have hscan : scan_chars I false false = some (false, false) := by
    have := scan_chars_digits I [] hId false false
    rw [List.append_nil] at this
    rw [this]; rfl
  have hsub : substr I 0 none = some (I ++ []) := by
    simp [substr]
  have hlhs := lhs_value I [] o.precision hI hId (fun c hc => by simp at hc) (le_trans hv hM)
  simp only [amount_from_string, hscan, scaled_precision_eq _ hp, find_digits_none I hId,
    Option.bind_eq_bind, Option.some_bind, Bool.false_eq_true, if_false, hsub]
  rw [hlhs]
  simp only [Option.some_bind]
  rw [if_pos hv]

theorem from_string_neg_int (M : Int) (o : asset_object) (I : List Char)
    (hp : o.precision ≤ 18) (hI : I ≠ []) (hId : ∀ c ∈ I, isdigit c = true)
    (hM : M ≤ INT64_MAX) (hv : (digits_value 0 I : Int) * 10 ^ o.precision ≤ M) :
    amount_from_string M o ('-' :: I) =
      some ⟨-((digits_value 0 I : Int) * 10 ^ o.precision), o.id⟩ := by
  have hnn : (0 : Int) ≤ (digits_value 0 I : Int) * 10 ^ o.precision :=
    mul_nonneg (Int.natCast_nonneg _) (by positivity)
  have hscan : scan_chars ('-' :: I) false false = some (true, false) := by
    have h0 : scan_chars ('-' :: I) false false = scan_chars I true false := by
      simp [scan_chars, show isdigit '-' = false from rfl]
    have := scan_chars_digits I [] hId true false
    rw [List.append_nil] at this
    rw [h0, this]; rfl
  have hfind : find ('-' :: I) '.' = none := by
    rw [find_cons, if_neg (by decide), find_digits_none I hId]
    rfl
  have hsub : substr ('-' :: I) 1 none = some (I ++ []) := by
    simp [substr]
  have hlhs := lhs_value I [] o.precision hI hId (fun c hc => by simp at hc) (le_trans hv hM)
  have hneg := safe_mul_neg_one _ hnn (le_trans hv hM)
  simp only [amount_from_string, hscan, scaled_precision_eq _ hp, hfind,
    Option.bind_eq_bind, Option.some_bind, if_true, hsub]
  rw [hlhs]
  simp only [Option.some_bind, Bool.false_eq_true, if_false]
  rw [if_pos hv, hneg]
  rfl

theorem to_string_natCast (n : Nat) : to_string (n : Int) = Nat.toDigits 10 n := by
  simp [to_string]

theorem to_string_neg_natCast (n : Nat) (h : 0 < n) :
    to_string (-(n : Int)) = '-' :: Nat.toDigits 10 n := by
  have : -(n : Int) < 0 := by omega
  simp [to_string, this]

theorem frac_text (p r : Nat) (hr : r < 10 ^ p) :
    (to_string ((10 : Int) ^ p + (r : Int))).drop 1 = frac_digits p r := by
  have e : ((10 : Int) ^ p + (r : Int)) = ((10 ^ p + r : Nat) : Int) := by push_cast; rfl
  rw [e, to_string_natCast, toDigits_pow_add p r hr]
  rfl

theorem tdiv_natCast_pow (n p : Nat) :
    Int.tdiv (n : Int) ((10 : Int) ^ p) = ((n / 10 ^ p : Nat) : Int) := by
  have e : ((10 : Int) ^ p) = ((10 ^ p : Nat) : Int) := by push_cast; rfl
  rw [e]; rfl

theorem tmod_natCast_pow (n p : Nat) :
    Int.tmod (n : Int) ((10 : Int) ^ p) = ((n % 10 ^ p : Nat) : Int) := by
  have e : ((10 : Int) ^ p) = ((10 ^ p : Nat) : Int) := by push_cast; rfl
  rw [e]; rfl

theorem tmod_neg_natCast_pow (n p : Nat) :
    Int.tmod (-(n : Int)) ((10 : Int) ^ p) = -((n % 10 ^ p : Nat) : Int) := by
  rw [Int.tmod_def, Int.neg_tdiv, ← tmod_natCast_pow, Int.tmod_def]
  ring

theorem amount_to_string_natCast (o : asset_object) (hp : o.precision ≤ 18) (n : Nat) :
    amount_to_string o (n : Int) = some (unsigned_text o.precision n) := by
  have hlt : n % 10 ^ o.precision < 10 ^ o.precision := Nat.mod_lt _ (by positivity)
  have hnn : ¬ ((n : Int) < 0) := by omega
  simp only [amount_to_string, scaled_precision_eq _ hp, Option.bind_eq_bind, Option.some_bind,
    tdiv_natCast_pow, tmod_natCast_pow, Int.natAbs_ofNat, to_string_natCast, unsigned_text,
    hnn, false_and, if_false]
  by_cases h : n % 10 ^ o.precision = 0
  · simp [h]
  · simp only [h, ne_eq, not_false_eq_true, if_true, if_false, frac_text _ _ hlt]

theorem amount_to_string_neg_natCast (o : asset_object) (hp : o.precision ≤ 18) (n : Nat)
    (hn : 0 < n) :
    amount_to_string o (-(n : Int)) = some ('-' :: unsigned_text o.precision n) := by
  have hlt : n % 10 ^ o.precision < 10 ^ o.precision := Nat.mod_lt _ (by positivity)
  have hneg : (-(n : Int) < 0) := by omega
  simp only [amount_to_string, scaled_precision_eq _ hp, Option.bind_eq_bind, Option.some_bind,
    Int.neg_tdiv, tdiv_natCast_pow, tmod_neg_natCast_pow, Int.natAbs_neg, Int.natAbs_ofNat,
    unsigned_text, hneg, true_and]
  by_cases h : n % 10 ^ o.precision = 0
  · have hq : 0 < n / 10 ^ o.precision := by
      have := Nat.div_add_mod n (10 ^ o.precision)
      rcases Nat.eq_zero_or_pos (n / 10 ^ o.precision) with h0 | h0
      · rw [h0, h] at this; omega
      · exact h0
    simp only [h, ne_eq, not_true_eq_false, if_false, if_true, to_string_neg_natCast _ hq]
  · simp only [h, ne_eq, not_false_eq_true, if_true, if_false, frac_text _ _ hlt]
    rcases Nat.eq_zero_or_pos (n / 10 ^ o.precision) with h0 | h0
    · rw [h0]
      simp [to_string]
      rfl
    · rw [to_string_neg_natCast _ h0]
      simp

theorem parsed_value_text (p n : Nat) :
    parsed_value p (Nat.toDigits 10 (n / 10 ^ p)) (frac_digits p (n % 10 ^ p)) = (n : Int) := by
  have hlt : n % 10 ^ p < 10 ^ p := Nat.mod_lt _ (by positivity)
  have h := digits_value_frac_digits p (n % 10 ^ p) 0 hlt
  simp only [parsed_value, digits_value_toDigits, length_frac_digits, h, Nat.sub_self, pow_zero,
    zero_mul, zero_add, mul_one]
  have := Nat.div_add_mod n (10 ^ p)
  have e : ((n / 10 ^ p : Nat) : Int) * 10 ^ p + ((n % 10 ^ p : Nat) : Int) =
      ((10 ^ p * (n / 10 ^ p) + n % 10 ^ p : Nat) : Int) := by push_cast; ring
  rw [e, this]

theorem whole_value_text (p n : Nat) (h : n % 10 ^ p = 0) :
    (digits_value 0 (Nat.toDigits 10 (n / 10 ^ p)) : Int) * 10 ^ p = (n : Int) := by
  have := Nat.div_add_mod n (10 ^ p)
  rw [h, add_zero] at this
  rw [digits_value_toDigits]
  have e : ((n / 10 ^ p : Nat) : Int) * 10 ^ p = ((10 ^ p * (n / 10 ^ p) : Nat) : Int) := by
    push_cast; ring
  rw [e, this]

theorem from_string_unsigned_text (M : Int) (o : asset_object) (n : Nat)
    (hp : o.precision ≤ 18) (hM : M ≤ INT64_MAX) (hn : (n : Int) ≤ M) :
    amount_from_string M o (unsigned_text o.precision n) = some ⟨(n : Int), o.id⟩ := by
  unfold unsigned_text
  by_cases h : n % 10 ^ o.precision = 0
  · rw [if_pos h]
    have hv := whole_value_text o.precision n h
    rw [from_string_int M o _ hp (toDigits_ne_nil _) (isdigit_toDigits _) hM (by rw [hv]; exact hn),
      hv]
  · rw [if_neg h]
    have hv := parsed_value_text o.precision n
    rw [from_string_int_frac M o _ _ hp (toDigits_ne_nil _) (isdigit_toDigits _)
      (isdigit_frac_digits _ _) (le_of_eq (length_frac_digits _ _)) hM (by rw [hv]; exact hn), hv]

theorem from_string_neg_unsigned_text (M : Int) (o : asset_object) (n : Nat)
    (hp : o.precision ≤ 18) (hM : M ≤ INT64_MAX) (hn : (n : Int) ≤ M) :
    amount_from_string M o ('-' :: unsigned_text o.precision n) = some ⟨-(n : Int), o.id⟩ := by
  unfold unsigned_text
  by_cases h : n % 10 ^ o.precision = 0
  · rw [if_pos h]
    have hv := whole_value_text o.precision n h
    rw [from_string_neg_int M o _ hp (toDigits_ne_nil _) (isdigit_toDigits _) hM
      (by rw [hv]; exact hn), hv]
  · rw [if_neg h]
    have hv := parsed_value_text o.precision n
    rw [from_string_neg_int_frac M o _ _ hp (toDigits_ne_nil _) (isdigit_toDigits _)
      (isdigit_frac_digits _ _) (le_of_eq (length_frac_digits _ _)) hM (by rw [hv]; exact hn), hv]

/-! ## Claims on the decimal conversion -/

/-- C1 (round trip): at every precision up to 18 and for every amount `a` whose magnitude
is at most the maximum share supply, `amount_to_string` produces a text and
`amount_from_string` reads that text back as exactly `a`, tagged with the asset's id. -/
theorem amount_round_trip (max_share_supply : Int) (o : asset_object) (a : Int)
    (hp : o.precision ≤ 18) (hM : max_share_supply ≤ INT64_MAX) (ha : |a| ≤ max_share_supply) :
    ∃ s, amount_to_string o a = some s ∧
      amount_from_string max_share_supply o s = some ⟨a, o.id⟩ := by
  rcases Int.eq_nat_or_neg a with ⟨n, rfl | rfl⟩
  · have hn : (n : Int) ≤ max_share_supply := by
      rw [abs_of_nonneg (Int.natCast_nonneg n)] at ha; exact ha
    exact ⟨_, amount_to_string_natCast o hp n,
      from_string_unsigned_text max_share_supply o n hp hM hn⟩
  · rcases Nat.eq_zero_or_pos n with h0 | hpos
    · subst h0
      have e : (-((0 : Nat) : Int)) = ((0 : Nat) : Int) := by simp
      rw [e] at ha ⊢
      exact ⟨_, amount_to_string_natCast o hp 0,
        from_string_unsigned_text max_share_supply o 0 hp hM (by simpa using ha)⟩
    · have hn : (n : Int) ≤ max_share_supply := by
        rw [abs_neg, abs_of_nonneg (Int.natCast_nonneg n)] at ha; exact ha
      exact ⟨_, amount_to_string_neg_natCast o hp n hpos,
        from_string_neg_unsigned_text max_share_supply o n hp hM hn⟩

/-- Witness for C1: the amount -5 at precision 2, with a maximum share
supply of 10^15. -/
theorem amount_round_trip_witness :
    ∃ s, amount_to_string ⟨7, 2⟩ (-5) = some s ∧
      amount_from_string 1000000000000000 ⟨7, 2⟩ s = some ⟨-5, 7⟩ :=
  amount_round_trip 1000000000000000 ⟨7, 2⟩ (-5) (by decide) (by decide) (by decide)

/-- C2 (parsed value): for a non-empty digit string `I` and a digit string `F` no longer
than the precision, with `v = value(I) * 10^p + value(F) * 10^(p - length F)` at most the
maximum share supply, `amount_from_string` returns `v` on `I.F`, `-v` on `-I.F`,
`value(I) * 10^p` on `I` and its negation on `-I`. -/
theorem amount_from_string_value (max_share_supply : Int) (o : asset_object) (I F : List Char)
    (hp : o.precision ≤ 18) (hI : I ≠ []) (hId : ∀ c ∈ I, isdigit c = true)
    (hFd : ∀ c ∈ F, isdigit c = true) (hF : F.length ≤ o.precision)
    (hM : max_share_supply ≤ INT64_MAX)
    (hv : (digits_value 0 I : Int) * 10 ^ o.precision +
      (digits_value 0 F : Int) * 10 ^ (o.precision - F.length) ≤ max_share_supply) :
    amount_from_string max_share_supply o (I ++ '.' :: F) =
      some ⟨(digits_value 0 I : Int) * 10 ^ o.precision +
        (digits_value 0 F : Int) * 10 ^ (o.precision - F.length), o.id⟩ ∧
    amount_from_string max_share_supply o ('-' :: (I ++ '.' :: F)) =
      some ⟨-((digits_value 0 I : Int) * 10 ^ o.precision +
        (digits_value 0 F : Int) * 10 ^ (o.precision - F.length)), o.id⟩ ∧
    amount_from_string max_share_supply o I =
      some ⟨(digits_value 0 I : Int) * 10 ^ o.precision, o.id⟩ ∧
    amount_from_string max_share_supply o ('-' :: I) =
      some ⟨-((digits_value 0 I : Int) * 10 ^ o.precision), o.id⟩ := by
  have hb := parsed_value_bounds o.precision I F
  have hw : (digits_value 0 I : Int) * 10 ^ o.precision ≤ max_share_supply :=
    le_trans hb.2 hv
  exact ⟨from_string_int_frac max_share_supply o I F hp hI hId hFd hF hM hv,
    from_string_neg_int_frac max_share_supply o I F hp hI hId hFd hF hM hv,
    from_string_int max_share_supply o I hp hI hId hM hw,
    from_string_neg_int max_share_supply o I hp hI hId hM hw⟩

/-- Witness for C2: the texts `12.3`, `-12.3`, `12` and `-12` at
precision 2. -/
theorem amount_from_string_value_witness :
    amount_from_string 1000000000000000 ⟨7, 2⟩ "12.3".toList = some ⟨1230, 7⟩ ∧
    amount_from_string 1000000000000000 ⟨7, 2⟩ "-12.3".toList = some ⟨-1230, 7⟩ ∧
    amount_from_string 1000000000000000 ⟨7, 2⟩ "12".toList = some ⟨1200, 7⟩ ∧
    amount_from_string 1000000000000000 ⟨7, 2⟩ "-12".toList = some ⟨-1200, 7⟩ :=
  amount_from_string_value 1000000000000000 ⟨7, 2⟩ "12".toList "3".toList
    (by decide) (by decide) (by decide) (by decide) (by decide) (by decide) (by decide)

theorem frac_digits_zero (p : Nat) : frac_digits p 0 = List.replicate p '0' := by
  induction p with
  | zero => rfl
  | succ p ih =>
    simp only [frac_digits, Nat.zero_div, Nat.zero_mod, ih]
    rw [List.replicate_succ']
    rfl

theorem leftpad_toDigits (p : Nat) : ∀ d, 0 < d → d < 10 ^ p →
    List.leftpad p '0' (Nat.toDigits 10 d) = frac_digits p d := by
  induction p with
  | zero => intro d h0 h1; simp at h1; omega
  | succ p ih =>
    intro d h0 h1
    by_cases h : d < 10
    · rw [toDigits_small d h]
      simp only [frac_digits, List.leftpad, List.length_singleton, Nat.add_sub_cancel]
      rw [Nat.div_eq_of_lt h, Nat.mod_eq_of_lt h, frac_digits_zero]
    · rw [toDigits_step d (by omega)]
      have hq := ih (d / 10) (by omega) (by rw [pow_succ] at h1; omega)
      simp only [frac_digits, ← hq, List.leftpad, List.length_append, List.length_singleton,
        Nat.add_sub_add_right, List.append_assoc]

theorem amount_text_spec_natCast (p n : Nat) :
    amount_text_spec p (n : Int) = unsigned_text p n := by
  have hnn : ¬ ((n : Int) < 0) := by omega
  have hlt : n % 10 ^ p < 10 ^ p := Nat.mod_lt _ (by positivity)
  simp only [amount_text_spec, hnn, false_and, if_false, tdiv_natCast_pow, tmod_natCast_pow,
    unsigned_text, to_string_natCast]
  by_cases h : n % 10 ^ p = 0
  · simp [h]
  · have h' : ((n % 10 ^ p : Nat) : Int) ≠ 0 := by exact_mod_cast h
    have habs : |((n % 10 ^ p : Nat) : Int)| = ((n % 10 ^ p : Nat) : Int) :=
      abs_of_nonneg (Int.natCast_nonneg _)
    rw [if_pos h', if_neg h, habs, to_string_natCast, leftpad_toDigits p _ (by omega) hlt]

theorem amount_text_spec_neg_natCast (p n : Nat) (hn : 0 < n) :
    amount_text_spec p (-(n : Int)) = '-' :: unsigned_text p n := by
  have hneg : (-(n : Int) < 0) := by omega
  have hlt : n % 10 ^ p < 10 ^ p := Nat.mod_lt _ (by positivity)
  have hpow : 0 < 10 ^ p := by positivity
  have habs : |(-(n : Int))| = (n : Int) := by
    rw [abs_neg]; exact abs_of_nonneg (Int.natCast_nonneg _)
  have hint : (if (n : Int) < 10 ^ p then ['-', '0']
      else to_string (-((n / 10 ^ p : Nat) : Int))) = '-' :: Nat.toDigits 10 (n / 10 ^ p) := by
    by_cases hs : n < 10 ^ p
    · have hs' : (n : Int) < 10 ^ p := by exact_mod_cast hs
      rw [if_pos hs', Nat.div_eq_of_lt hs]
      rfl
    · have hs' : ¬ ((n : Int) < 10 ^ p) := by
        intro hc; exact hs (by exact_mod_cast hc)
      have hq : 0 < n / 10 ^ p := Nat.div_pos (by omega) hpow
      rw [if_neg hs', to_string_neg_natCast _ hq]
  simp only [amount_text_spec, hneg, true_and, habs, Int.neg_tdiv, tdiv_natCast_pow,
    tmod_neg_natCast_pow, unsigned_text, hint]
  by_cases h : n % 10 ^ p = 0
  · simp [h]
  · have h' : -((n % 10 ^ p : Nat) : Int) ≠ 0 := by
      intro hc; apply h; omega
    have habs2 : |(-((n % 10 ^ p : Nat) : Int))| = ((n % 10 ^ p : Nat) : Int) := by
      rw [abs_neg]; exact abs_of_nonneg (Int.natCast_nonneg _)
    rw [if_pos h', if_neg h, habs2, to_string_natCast, leftpad_toDigits p _ (by omega) hlt]
    rfl

/-- C3 (formatted text): at every precision up to 18, `amount_to_string` returns the decimal
print of `amount / 10^p` truncated toward zero, followed exactly when `amount mod 10^p` is
not zero by `.` and the magnitude of the remainder padded with zeros on the left, which is
then exactly `p` characters long; a negative amount of magnitude below `10^p` has the
integer part `-0`, and -5 at precision 2 is printed `-0.05`. -/
theorem amount_to_string_text (o : asset_object) (a : Int) (hp : o.precision ≤ 18) :
    amount_to_string o a = some (amount_text_spec o.precision a) ∧
    (Int.tmod a (10 ^ o.precision) ≠ 0 →
      (List.leftpad o.precision '0' (to_string |Int.tmod a (10 ^ o.precision)|)).length
        = o.precision) ∧
    amount_to_string ⟨o.id, 2⟩ (-5) = some "-0.05".toList := by
  refine ⟨?_, ?_, ?_⟩
  rotate_left 2
  · have h := amount_to_string_neg_natCast ⟨o.id, 2⟩ (show (2 : Nat) ≤ 18 by decide) 5
      (by decide)
    have e : ('-' :: unsigned_text 2 5) = "-0.05".toList := by decide
    exact h.trans (congrArg some e)
  · rcases Int.eq_nat_or_neg a with ⟨n, rfl | rfl⟩
    · rw [amount_text_spec_natCast]
      exact amount_to_string_natCast o hp n
    · rcases Nat.eq_zero_or_pos n with h0 | hpos
      · subst h0
        have e : (-((0 : Nat) : Int)) = ((0 : Nat) : Int) := by simp
        rw [e, amount_text_spec_natCast]
        exact amount_to_string_natCast o hp 0
      · rw [amount_text_spec_neg_natCast _ _ hpos]
        exact amount_to_string_neg_natCast o hp n hpos
  · intro hr
    have hpow : (0 : Int) < 10 ^ o.precision := by positivity
    obtain ⟨r, hr1⟩ : ∃ r : Nat, |Int.tmod a (10 ^ o.precision)| = (r : Int) :=
      ⟨(Int.tmod a (10 ^ o.precision)).natAbs, by simp⟩
    have hlt : (r : Int) < 10 ^ o.precision := by
      rw [← hr1, abs_lt]
      constructor
      · have h1 := Int.tmod_lt_of_pos (-a) hpow
        have h2 : Int.tmod (-a) (10 ^ o.precision) = -Int.tmod a (10 ^ o.precision) := by
          rw [Int.tmod_def, Int.neg_tdiv, Int.tmod_def]; ring
        rw [h2] at h1
        linarith
      · exact Int.tmod_lt_of_pos a hpow
    have hpos : 0 < r := by
      rcases Nat.eq_zero_or_pos r with h0 | h0
      · rw [h0] at hr1
        exact absurd (abs_eq_zero.mp (by simpa using hr1)) hr
      · exact h0
    rw [hr1, to_string_natCast, leftpad_toDigits _ r hpos (by exact_mod_cast hlt),
      length_frac_digits]

/-- Witness for C3: the amount -12305 at precision 2. -/
theorem amount_to_string_text_witness :
    amount_to_string ⟨7, 2⟩ (-12305) = some "-123.05".toList ∧
    amount_text_spec 2 (-12305) = "-123.05".toList :=
  ⟨(amount_to_string_text ⟨7, 2⟩ (-12305) (by decide)).1.trans (by decide), by decide⟩

/-! ## What the character check lets through -/

theorem scan_chars_some (s : List Char) : ∀ (n d n' d' : Bool),
    scan_chars s n d = some (n', d') →
    (∀ c ∈ s, isdigit c = true ∨ c = '-' ∨ c = '.') ∧
    s.count '-' + (if n then 1 else 0) ≤ 1 ∧
    s.count '.' + (if d then 1 else 0) ≤ 1 ∧
    n' = (n || decide ('-' ∈ s)) ∧ d' = (d || decide ('.' ∈ s)) := by
  induction s with
  | nil =>
    intro n d n' d' h
    simp only [scan_chars, Option.some.injEq, Prod.mk.injEq] at h
    obtain ⟨rfl, rfl⟩ := h
    cases n <;> cases d <;> simp
  | cons c cs ih =>
    intro n d n' d' h
    simp only [scan_chars] at h
    by_cases hc : isdigit c = true
    · rw [if_pos hc] at h
      have hsp := isdigit_not_special c hc
      obtain ⟨h1, h2, h3, h4, h5⟩ := ih n d n' d' h
      refine ⟨?_, ?_, ?_, ?_, ?_⟩
      · intro x hx
        rcases List.mem_cons.mp hx with rfl | hx
        · exact Or.inl hc
        · exact h1 x hx
      · rw [List.count_cons_of_ne (Ne.symm hsp.2.1)]; exact h2
      · rw [List.count_cons_of_ne (Ne.symm hsp.2.2.2)]; exact h3
      · rw [h4]; simp [Ne.symm hsp.2.1]
      · rw [h5]; simp [Ne.symm hsp.2.2.2]
    · rw [if_neg hc] at h
      by_cases hm : c = '-' ∧ n = false
      · rw [if_pos hm] at h
        obtain ⟨rfl, rfl⟩ := hm
        obtain ⟨h1, h2, h3, h4, h5⟩ := ih true d n' d' h
        refine ⟨?_, ?_, ?_, ?_, ?_⟩
        · intro x hx
          rcases List.mem_cons.mp hx with rfl | hx
          · exact Or.inr (Or.inl rfl)
          · exact h1 x hx
        · rw [List.count_cons_self]; simpa using h2
        · rw [List.count_cons_of_ne (by decide)]; exact h3
        · rw [h4]; simp
        · rw [h5]; simp
      · rw [if_neg hm] at h
        by_cases hd : c = '.' ∧ d = false
        · rw [if_pos hd] at h
          obtain ⟨rfl, rfl⟩ := hd
          obtain ⟨h1, h2, h3, h4, h5⟩ := ih n true n' d' h
          refine ⟨?_, ?_, ?_, ?_, ?_⟩
          · intro x hx
            rcases List.mem_cons.mp hx with rfl | hx
            · exact Or.inr (Or.inr rfl)
            · exact h1 x hx
          · rw [List.count_cons_of_ne (by decide)]; exact h2
          · rw [List.count_cons_self]; simpa using h3
          · rw [h4]; simp
          · rw [h5]; simp
        · rw [if_neg hd] at h
          exact absurd h (by simp)

theorem find_append_of_not_mem (pre post : List Char) (c : Char) (h : c ∉ pre) :
    find (pre ++ c :: post) c = some pre.length := by
  induction pre with
  | nil => simp [find]
  | cons x xs ih =>
    have hx : x ≠ c := fun e => h (by rw [e]; exact List.mem_cons_self _ _)
    rw [List.cons_append, find_cons, if_neg hx, ih (fun hm => h (List.mem_cons_of_mem _ hm))]
    rfl

theorem add_fraction_too_long (sat : Int) (p : Nat) (pre post : List Char) (hlen : p < post.length) :
    add_fraction sat ((10 : Int) ^ p) (pre ++ '.' :: post) (some pre.length) = none := by
  have hsub : substr (pre ++ '.' :: post) (pre.length + 1) none = some post := by
    simp [substr]
  simp only [add_fraction, max_rhs_size_eq, hsub, Option.bind_eq_bind, Option.some_bind]
  rw [if_neg (by omega)]

theorem from_string_fraction_too_long (M : Int) (o : asset_object) (pre post : List Char)
    (hlen : o.precision < post.length) :
    amount_from_string M o (pre ++ '.' :: post) = none := by
  cases hscan : scan_chars (pre ++ '.' :: post) false false with
  | none => simp [amount_from_string, hscan]
  | some r =>
    obtain ⟨n', d'⟩ := r
    obtain ⟨-, -, h3, -, h5⟩ := scan_chars_some _ _ _ _ _ hscan
    have hpre : '.' ∉ pre := by
      intro hm
      have : 0 < pre.count '.' := List.count_pos_iff.mpr hm
      simp only [List.count_append, List.count_cons_self] at h3
      simp at h3
      omega
    have hd : d' = true := by rw [h5]; simp
    subst hd
    simp only [amount_from_string, hscan, Option.bind_eq_bind, Option.some_bind,
      find_append_of_not_mem pre post '.' hpre, if_true]
    by_cases hp : o.precision < 19
    · simp only [scaled_precision, hp, if_true, Option.some_bind]
      cases substr (pre ++ '.' :: post) (if n' = true then 1 else 0) (some pre.length) with
      | none => rfl
      | some lhs =>
        simp only [Option.some_bind]
        cases add_integer_part 0 (10 ^ o.precision) lhs with
        | none => rfl
        | some sat =>
          simp only [Option.some_bind, add_fraction_too_long sat _ pre post hlen,
            Option.none_bind]
    · simp [scaled_precision, hp]

/-- C4 (rejection): at every precision, `amount_from_string` fails on a text that contains
a character other than a digit, `-` or `.`, or two `-`, or two `.`, or more characters
after a `.` than the precision; `12.3456` at precision 2, `1a` and `1.2.3` fail. -/
theorem amount_from_string_rejects (max_share_supply : Int) (o : asset_object) (s : List Char)
    (h : (∃ c ∈ s, isdigit c = false ∧ c ≠ '-' ∧ c ≠ '.') ∨ 2 ≤ s.count '-' ∨ 2 ≤ s.count '.' ∨
      (∃ pre post, s = pre ++ '.' :: post ∧ o.precision < post.length)) :
    amount_from_string max_share_supply o s = none ∧
    amount_from_string max_share_supply ⟨o.id, 2⟩ "12.3456".toList = none ∧
    amount_from_string max_share_supply o "1a".toList = none ∧
    amount_from_string max_share_supply o "1.2.3".toList = none := by
  have hbad : ∀ t : List Char, scan_chars t false false = none →
      ∀ o' : asset_object, amount_from_string max_share_supply o' t = none := by
    intro t ht o'
    simp [amount_from_string, ht]
  refine ⟨?_, from_string_fraction_too_long _ ⟨o.id, 2⟩ "12".toList "3456".toList
    (show 2 < "3456".toList.length by decide),
    hbad _ (by decide) o, hbad _ (by decide) o⟩
  rcases h with ⟨c, hc, h1, h2, h3⟩ | h | h | ⟨pre, post, rfl, hlen⟩
  · cases hscan : scan_chars s false false with
    | none => exact hbad s hscan o
    | some r =>
      obtain ⟨n', d'⟩ := r
      rcases (scan_chars_some _ _ _ _ _ hscan).1 c hc with hd | hd | hd
      · rw [hd] at h1; exact absurd h1 (by simp)
      · exact absurd hd h2
      · exact absurd hd h3
  · cases hscan : scan_chars s false false with
    | none => exact hbad s hscan o
    | some r =>
      obtain ⟨n', d'⟩ := r
      have := (scan_chars_some _ _ _ _ _ hscan).2.1
      simp at this
      omega
  · cases hscan : scan_chars s false false with
    | none => exact hbad s hscan o
    | some r =>
      obtain ⟨n', d'⟩ := r
      have := (scan_chars_some _ _ _ _ _ hscan).2.2.1
      simp at this
      omega
  · exact from_string_fraction_too_long _ o pre post hlen

/-- Witness for C4: `12.3456` at precision 2. -/
theorem amount_from_string_rejects_witness :
    amount_from_string 1000000000000000 ⟨7, 2⟩ "12.3456".toList = none :=
  (amount_from_string_rejects 1000000000000000 ⟨7, 2⟩ "12.3456".toList
    (Or.inr (Or.inr (Or.inr ⟨"12".toList, "3456".toList, by decide, by decide⟩)))).1

theorem max_force_settlement_volume_floor (options : bitasset_options)
    (force_settled_volume current_supply : Int)
    (hs : 0 ≤ current_supply) (hf : 0 ≤ force_settled_volume)
    (hsum : current_supply + force_settled_volume ≤ INT64_MAX)
    (hm : options.maximum_force_settlement_volume ≤ GRAPHENE_100_PERCENT) :
    max_force_settlement_volume options force_settled_volume current_supply =
      some ((current_supply + force_settled_volume) *
        (options.maximum_force_settlement_volume : Int) / 10000) := by
  have hsum' : in_int64 (current_supply + force_settled_volume) = true :=
    in_int64_of_bounds _ (by omega) hsum
  unfold max_force_settlement_volume
  by_cases h0 : options.maximum_force_settlement_volume = 0
  · simp [h0]
  · rw [if_neg h0]
    by_cases h1 : options.maximum_force_settlement_volume = GRAPHENE_100_PERCENT
    · rw [if_pos h1, h1]
      simp only [safe_add, hsum', if_true, GRAPHENE_100_PERCENT]
      congr 1
      omega
    · rw [if_neg h1]
      obtain ⟨a, rfl⟩ := Int.eq_ofNat_of_zero_le hs
      obtain ⟨b, rfl⟩ := Int.eq_ofNat_of_zero_le hf
      simp only [INT64_MAX, GRAPHENE_100_PERCENT] at hsum hm h1 ⊢
      generalize options.maximum_force_settlement_volume = m at *
      have hab : a + b < 2 ^ 63 := by omega
      have ha : to_uint128 (a : Int) = a := by
        simp only [to_uint128]
        rw [Int.emod_eq_of_lt (by omega) (by omega)]
        rfl
      have hb : to_uint128 (b : Int) = b := by
        simp only [to_uint128]
        rw [Int.emod_eq_of_lt (by omega) (by omega)]
        rfl
      have hprod : (a + b) * m < 2 ^ 63 * 10000 := by
        calc (a + b) * m ≤ (a + b) * 10000 := Nat.mul_le_mul_left _ hm
          _ < 2 ^ 63 * 10000 := Nat.mul_lt_mul_of_pos_right hab (by norm_num)
      have hdiv : (a + b) * m / 10000 < 2 ^ 63 := by
        rw [Nat.div_lt_iff_lt_mul (by norm_num)]
        exact hprod
      rw [ha, hb, Nat.mod_eq_of_lt (by omega : a + b < 2 ^ 128),
        Nat.mod_eq_of_lt (by omega : (a + b) * m < 2 ^ 128),
        Nat.mod_eq_of_lt (by omega : (a + b) * m / 10000 < 2 ^ 64)]
      simp only [uint64_to_int64, hdiv, if_true]
      congr 1

/-- C8 (settlement cap): for non-negative `current_supply` and `force_settled_volume` whose
sum fits 64 bits and a percentage of at most `GRAPHENE_100_PERCENT`, the cap is exactly
`floor((current_supply + force_settled_volume) * percentage / 10000)`: nothing is lost in
the 128-bit intermediate or in the narrowing; it is 0 at 0%, the whole sum at 100%, and 500
for a supply of 1000 with nothing settled at 50%. -/
theorem max_force_settlement_volume_exact (options : bitasset_options)
    (force_settled_volume current_supply : Int)
    (hs : 0 ≤ current_supply) (hf : 0 ≤ force_settled_volume)
    (hsum : current_supply + force_settled_volume ≤ INT64_MAX)
    (hm : options.maximum_force_settlement_volume ≤ GRAPHENE_100_PERCENT) :
    max_force_settlement_volume options force_settled_volume current_supply =
      some ((current_supply + force_settled_volume) *
        (options.maximum_force_settlement_volume : Int) / 10000) ∧
    (options.maximum_force_settlement_volume = 0 →
      max_force_settlement_volume options force_settled_volume current_supply = some 0) ∧
    (options.maximum_force_settlement_volume = GRAPHENE_100_PERCENT →
      max_force_settlement_volume options force_settled_volume current_supply =
        some (current_supply + force_settled_volume)) ∧
    max_force_settlement_volume { options with maximum_force_settlement_volume := 5000 } 0 1000
      = some 500 := by
  have hsum' : in_int64 (current_supply + force_settled_volume) = true :=
    in_int64_of_bounds _ (by omega) hsum
  refine ⟨max_force_settlement_volume_floor options _ _ hs hf hsum hm, ?_, ?_, ?_⟩
  · intro h0
    simp [max_force_settlement_volume, h0]
  · intro h1
    have hne : GRAPHENE_100_PERCENT ≠ 0 := by decide
    simp [max_force_settlement_volume, h1, hne, safe_add, hsum']
  · have h := max_force_settlement_volume_floor
      { options with maximum_force_settlement_volume := 5000 } 0 1000 (by decide) (by decide)
      (by decide) (show 5000 ≤ GRAPHENE_100_PERCENT by decide)
    rw [h]
    norm_num

/-- Witness for C8: supply 1001, settled volume 7, 33.33%. -/
theorem max_force_settlement_volume_exact_witness :
    max_force_settlement_volume ⟨0, 1, 3333, 0⟩ 7 1001 = some 335 :=
  (max_force_settlement_volume_exact ⟨0, 1, 3333, 0⟩ 7 1001 (by decide) (by decide) (by decide)
    (by decide)).1

/-- C9 (snapshot integrity): for every state `x` of the object, with its amounts tagged the
way `restore` tags them, and every later state `y`, restoring `y` from `backup x` gives back
`current_supply`, `accumulated_fees`, `fee_pool` and `confidential_supply` of `x`, amount and
asset tag, and the master fields of `x`, each whatever `y` holds in the other fields; and
every state that `restore` produces, from any snapshot, is tagged that way again, as is
every such state after `clear`. -/
theorem restore_backup (Master : Type) (x y : asset_dynamic_data_object Master)
    (hx : x.well_tagged) :
    (y.restore x.backup).current_supply = x.current_supply ∧
    (y.restore x.backup).accumulated_fees = x.accumulated_fees ∧
    (y.restore x.backup).fee_pool = x.fee_pool ∧
    (y.restore x.backup).confidential_supply = x.confidential_supply ∧
    (y.restore x.backup).master = x.master ∧
    (∀ b : asset_dynamic_data_backup Master, (y.restore b).well_tagged) ∧
    x.clear.well_tagged := by
  obtain ⟨h1, h2, h3⟩ := hx
  refine ⟨rfl, ?_, ?_, ?_, rfl, fun b => ⟨rfl, rfl, rfl⟩, ⟨h1, h2, h3⟩⟩
  · show (⟨x.current_supply.asset_id, x.accumulated_fees.amount⟩ : stored_value) = _
    rw [← h1]
  · show (⟨0, x.fee_pool.amount⟩ : stored_value) = _
    rw [← h2]
  · show (⟨x.current_supply.asset_id, x.confidential_supply.amount⟩ : stored_value) = _
    rw [← h3]

/-- Witness for C9: a state of asset 5 with its fee pool in the default asset, restored over
a later state in which every amount has changed. -/
theorem restore_backup_witness :
    ((⟨(), ⟨5, 90⟩, ⟨5, 2⟩, ⟨0, 30⟩, ⟨5, 4⟩, ⟨5, 0⟩⟩ : asset_dynamic_data_object Unit).restore
      (asset_dynamic_data_object.backup
        ⟨(), ⟨5, 100⟩, ⟨5, 1⟩, ⟨0, 20⟩, ⟨5, 3⟩, ⟨5, 0⟩⟩)).fee_pool = ⟨0, 20⟩ ∧
    ((⟨(), ⟨5, 90⟩, ⟨5, 2⟩, ⟨0, 30⟩, ⟨5, 4⟩, ⟨5, 0⟩⟩ : asset_dynamic_data_object Unit).restore
      (asset_dynamic_data_object.backup
        ⟨(), ⟨5, 100⟩, ⟨5, 1⟩, ⟨0, 20⟩, ⟨5, 3⟩, ⟨5, 0⟩⟩)).accumulated_fees = ⟨5, 1⟩ :=
  ⟨(restore_backup Unit ⟨(), ⟨5, 100⟩, ⟨5, 1⟩, ⟨0, 20⟩, ⟨5, 3⟩, ⟨5, 0⟩⟩
      ⟨(), ⟨5, 90⟩, ⟨5, 2⟩, ⟨0, 30⟩, ⟨5, 4⟩, ⟨5, 0⟩⟩ ⟨rfl, rfl, rfl⟩).2.2.1,
    (restore_backup Unit ⟨(), ⟨5, 100⟩, ⟨5, 1⟩, ⟨0, 20⟩, ⟨5, 3⟩, ⟨5, 0⟩⟩
      ⟨(), ⟨5, 90⟩, ⟨5, 2⟩, ⟨0, 30⟩, ⟨5, 4⟩, ⟨5, 0⟩⟩ ⟨rfl, rfl, rfl⟩).2.1⟩

theorem collect_feeds_eq (lifetime ct : Nat) (fs : List (Nat × Nat × price_feed P)) :
    ∀ acc : List (price_feed P) × Nat,
    collect_feeds lifetime ct fs acc =
      (acc.1 ++ (fs.filter (feed_alive lifetime ct)).map (fun f => f.2.2),
        ((fs.filter (feed_alive lifetime ct)).map (fun f => f.2.1)).foldl min acc.2) := by
  induction fs with
  | nil => intro acc; simp [collect_feeds]
  | cons f fs ih =>
    intro acc
    obtain ⟨cur, pt⟩ := acc
    by_cases h : feed_alive lifetime ct f = true
    · simp only [collect_feeds, h, if_true, ih, List.filter_cons_of_pos h, List.map_cons,
        List.foldl_cons, List.append_assoc, List.singleton_append]
    · simp only [collect_feeds, h, if_false, ih, List.filter_cons_of_neg h]
      simp

theorem collect_feeds_filter (lifetime ct : Nat) (fs : List (Nat × Nat × price_feed P))
    (acc : List (price_feed P) × Nat) :
    collect_feeds lifetime ct (fs.filter (feed_alive lifetime ct)) acc =
      collect_feeds lifetime ct fs acc := by
  rw [collect_feeds_eq, collect_feeds_eq, List.filter_filter]
  simp

theorem collected_length [DecidableEq P] (self : asset_bitasset_data_master P) (ct : Nat) :
    (collect_feeds self.options.feed_lifetime_sec ct self.feeds ([], ct)).1.length =
      (live_entries self ct).length := by
  rw [collect_feeds_eq]
  simp [live_entries]

/-! ## Claims on the feed aggregation -/

/-- C6 (feed insufficiency): whenever fewer feeds survive than `options.minimum_feeds`,
`update_median_feeds` returns with the default feed as `current_feed`, `feed_cer_updated`
false and `current_feed_publication_time` equal to `current_time`, whatever the feeds hold
and whatever these members were before. -/
theorem update_median_feeds_insufficient [DecidableEq P] (env : feed_env P)
    (self : asset_bitasset_data_master P) (current_time next_maintenance_time : Nat)
    (h : (live_entries self current_time).length < self.options.minimum_feeds) :
    ∃ r, update_median_feeds env self current_time next_maintenance_time = some r ∧
      r.current_feed = env.null_feed ∧ r.feed_cer_updated = false ∧
      r.current_feed_publication_time = current_time := by
  rw [← collected_length] at h
  unfold update_median_feeds
  simp only [h, if_true]
  exact ⟨_, rfl, rfl, rfl, rfl⟩

/-- Witness for C6: `minimum_feeds = 3` with two live feeds
and one expired feed. -/
theorem update_median_feeds_insufficient_witness :
    ∃ r, update_median_feeds sample_env
        ⟨1, ⟨60, 3, 0, 0⟩, [(1, 990, ⟨5, 6, 7, 8⟩), (2, 995, ⟨1, 2, 3, 4⟩), (3, 900, ⟨9, 9, 9, 9⟩)],
          ⟨4, 4, 4, 4⟩, 17, 3, true, 0⟩ 1000 2000 = some r ∧
      r.current_feed = sample_env.null_feed ∧ r.feed_cer_updated = false ∧
      r.current_feed_publication_time = 1000 :=
  update_median_feeds_insufficient sample_env
    ⟨1, ⟨60, 3, 0, 0⟩, [(1, 990, ⟨5, 6, 7, 8⟩), (2, 995, ⟨1, 2, 3, 4⟩), (3, 900, ⟨9, 9, 9, 9⟩)],
      ⟨4, 4, 4, 4⟩, 17, 3, true, 0⟩ 1000 2000 (by decide)

/-- C7 (feed expiry filter): an entry takes part in the aggregation exactly when its time is
not the default and its age in seconds is below `feed_lifetime_sec`; `update_median_feeds`
gives the same result on the feed map with all other entries removed; an entry whose age
equals the lifetime is left out; and when the only feed has expired and at least one feed
is required, the insufficient-data result is produced. -/
theorem update_median_feeds_filter [DecidableEq P] (env : feed_env P)
    (self : asset_bitasset_data_master P) (current_time next_maintenance_time : Nat) :
    (collect_feeds self.options.feed_lifetime_sec current_time self.feeds ([], current_time)).1
      = (live_entries self current_time).map (fun f => f.2.2) ∧
    (∀ f : Nat × Nat × price_feed P,
      feed_alive self.options.feed_lifetime_sec current_time f = true ↔
        f.2.1 ≠ 0 ∧ (current_time : Int) - (f.2.1 : Int) < (self.options.feed_lifetime_sec : Int)) ∧
    update_median_feeds env { self with feeds := live_entries self current_time }
        current_time next_maintenance_time =
      (update_median_feeds env self current_time next_maintenance_time).map
        (fun r => { r with feeds := live_entries self current_time }) ∧
    (∀ f : Nat × Nat × price_feed P,
      (current_time : Int) - (f.2.1 : Int) = (self.options.feed_lifetime_sec : Int) →
        feed_alive self.options.feed_lifetime_sec current_time f = false) ∧
    (∀ f : Nat × Nat × price_feed P, self.feeds = [f] →
      feed_alive self.options.feed_lifetime_sec current_time f = false →
      1 ≤ self.options.minimum_feeds →
      ∃ r, update_median_feeds env self current_time next_maintenance_time = some r ∧
        r.current_feed = env.null_feed ∧ r.feed_cer_updated = false ∧
        r.current_feed_publication_time = current_time) := by
  refine ⟨?_, ?_, ?_, ?_, ?_⟩
  · rw [collect_feeds_eq]
    simp [live_entries]
  · intro f
    simp only [feed_alive, Bool.and_eq_true, decide_eq_true_eq]
    tauto
  · have hc := collect_feeds_filter self.options.feed_lifetime_sec current_time self.feeds
      ([], current_time)
    unfold update_median_feeds
    simp only [live_entries, hc]
    generalize collect_feeds self.options.feed_lifetime_sec current_time self.feeds
      ([], current_time) = c
    by_cases h1 : c.1.length < self.options.minimum_feeds
    · simp only [h1, if_true, Option.map_some']
    · simp only [h1, if_false]
      by_cases h2 : c.1.length = 1
      · simp only [h2, if_true]
        cases c.1.head? <;> rfl
      · simp only [h2, if_false]
        cases median_feed env c.1 <;> rfl
  · intro f hf
    simp only [feed_alive, hf, lt_self_iff_false, decide_False, Bool.false_and]
  · intro f hf hdead hmin
    have hlen : (live_entries self current_time).length < self.options.minimum_feeds := by
      simp only [live_entries, hf, List.filter_cons_of_neg (by simpa using hdead),
        List.filter_nil, List.length_nil]
      omega
    rw [← collected_length] at hlen
    unfold update_median_feeds
    simp only [hlen, if_true]
    exact ⟨_, rfl, rfl, rfl, rfl⟩

/-- Witness for C7: the only feed, published at time 900, has
exactly the age 100 of the lifetime, so that the default feed results. -/
theorem update_median_feeds_filter_witness :
    ∃ r, update_median_feeds sample_env
        ⟨1, ⟨100, 1, 0, 0⟩, [(3, 900, ⟨9, 9, 9, 9⟩)], ⟨4, 4, 4, 4⟩, 17, 3, true, 0⟩ 1000 2000
          = some r ∧
      r.current_feed = sample_env.null_feed ∧ r.feed_cer_updated = false ∧
      r.current_feed_publication_time = 1000 :=
  (update_median_feeds_filter sample_env
    ⟨1, ⟨100, 1, 0, 0⟩, [(3, 900, ⟨9, 9, 9, 9⟩)], ⟨4, 4, 4, 4⟩, 17, 3, true, 0⟩ 1000 2000).2.2.2.2
    (3, 900, ⟨9, 9, 9, 9⟩) rfl (by decide) (by decide)

/-! ## The median calculation under the contract of `std::nth_element` -/

theorem strict_weak_order_nat : strict_weak_order (fun a b : Nat => decide (a < b)) := by
  refine ⟨?_, ?_, ?_⟩
  · intro a; simp
  · intro a b c h1 h2
    simp only [decide_eq_true_eq] at *
    omega
  · intro a b c h
    simp only [decide_eq_true_eq] at *
    omega

theorem strict_weak_order_comap {α β : Type} (lt : β → β → Bool) (f : α → β)
    (h : strict_weak_order lt) : strict_weak_order (fun a b => lt (f a) (f b)) :=
  ⟨fun a => h.1 (f a), fun a b c => h.2.1 (f a) (f b) (f c), fun a b c => h.2.2 (f a) (f b) (f c)⟩

theorem nth_element_pick {α β : Type} (nth : (α → α → Bool) → List α → Nat → List α)
    (hc : nth_element_contract nth) (lt : β → β → Bool) (hlt : strict_weak_order lt)
    (f : α → β) (l0 l : List α) (hperm : l.Perm l0) (k : Nat) (hk : k < l0.length) :
    (nth (fun a b => lt (f a) (f b)) l k).Perm l0 ∧
    ∃ m, (nth (fun a b => lt (f a) (f b)) l k)[k]? = some m ∧
      ascending_pick lt (l0.map f) k (f m) := by
  have hlen : l.length = l0.length := hperm.length_eq
  obtain ⟨h1, ⟨s, hs1, hs2, hs3⟩, -⟩ :=
    hc (fun a b => lt (f a) (f b)) l k (strict_weak_order_comap lt f hlt) (by omega)
  have hk' : k < (nth (fun a b => lt (f a) (f b)) l k).length := by
    rw [h1.length_eq]; omega
  refine ⟨h1.trans hperm, (nth (fun a b => lt (f a) (f b)) l k)[k], ?_, ?_⟩
  · exact List.getElem?_eq_getElem hk'
  · refine ⟨s.map f, (hs1.trans hperm).map f, ?_, ?_⟩
    · rw [List.pairwise_map]
      exact hs2
    · rw [List.getElem?_map, hs3, List.getElem?_eq_getElem hk']
      rfl

theorem median_feed_some (env : feed_env P) (hc : nth_element_contract env.nth_element)
    (hlt : strict_weak_order env.price_lt) (l0 : List (price_feed P)) (hn : 1 ≤ l0.length) :
    ∃ m, median_feed env l0 = some m ∧
      ascending_pick env.price_lt (l0.map (fun f => f.settlement_price)) (l0.length / 2)
        m.settlement_price ∧
      ascending_pick (fun a b : Nat => decide (a < b))
        (l0.map (fun f => f.maintenance_collateral_ratio)) (l0.length / 2)
        m.maintenance_collateral_ratio ∧
      ascending_pick (fun a b : Nat => decide (a < b))
        (l0.map (fun f => f.maximum_short_squeeze_ratio)) (l0.length / 2)
        m.maximum_short_squeeze_ratio ∧
      ascending_pick env.price_lt (l0.map (fun f => f.core_exchange_rate)) (l0.length / 2)
        m.core_exchange_rate := by
  have hk : l0.length / 2 < l0.length := Nat.div_lt_self (by omega) (by norm_num)
  obtain ⟨p1, m1, e1, a1⟩ := nth_element_pick env.nth_element hc env.price_lt hlt
    (fun f => f.settlement_price) l0 l0 (List.Perm.refl _) _ hk
  obtain ⟨p2, m2, e2, a2⟩ := nth_element_pick env.nth_element hc _ strict_weak_order_nat
    (fun f => f.maintenance_collateral_ratio) l0 _ p1 _ hk
  obtain ⟨p3, m3, e3, a3⟩ := nth_element_pick env.nth_element hc _ strict_weak_order_nat
    (fun f => f.maximum_short_squeeze_ratio) l0 _ p2 _ hk
  obtain ⟨-, m4, e4, a4⟩ := nth_element_pick env.nth_element hc env.price_lt hlt
    (fun f => f.core_exchange_rate) l0 _ p3 _ hk
  refine ⟨⟨m1.settlement_price, m2.maintenance_collateral_ratio,
    m3.maximum_short_squeeze_ratio, m4.core_exchange_rate⟩, ?_, a1, a2, a3, a4⟩
  simp only [median_feed, Option.bind_eq_bind, e1, e2, e3, e4, Option.some_bind]

theorem sort_nth_element_contract {α : Type} :
    nth_element_contract (sort_nth_element : (α → α → Bool) → List α → Nat → List α) := by
  intro lt l k hlt _
  have htot : IsTotal α (fun a b => lt b a = false) := ⟨by
    intro a b
    by_cases h1 : lt b a = true
    · right
      by_contra h2
      have h3 : lt a b = true := by simpa using h2
      have := hlt.2.1 a b a h3 h1
      rw [hlt.1 a] at this
      exact absurd this (by simp)
    · left; simpa using h1⟩
  have htr : IsTrans α (fun a b => lt b a = false) := ⟨by
    intro a b c h1 h2
    by_contra h3
    have h4 : lt c a = true := by simpa using h3
    rcases hlt.2.2 c b a h4 with h | h
    · rw [h2] at h; exact absurd h (by simp)
    · rw [h1] at h; exact absurd h (by simp)⟩
  have hsorted : (l.insertionSort (fun a b => lt b a = false)).Pairwise
      (fun a b => lt b a = false) := List.sorted_insertionSort _ l
  refine ⟨List.perm_insertionSort _ l, ⟨_, List.perm_insertionSort _ l, hsorted, rfl⟩, ?_⟩
  intro x hx y hy
  have h := hsorted
  rw [show sort_nth_element lt l k = l.insertionSort (fun a b => lt b a = false) from rfl]
    at hx hy
  rw [← List.take_append_drop k (l.insertionSort (fun a b => lt b a = false)),
    List.pairwise_append] at h
  exact h.2.2 x hx y hy

theorem ascending_pick_nat (column : List Nat) (k x : Nat)
    (h : ascending_pick (fun a b : Nat => decide (a < b)) column k x) :
    (column.insertionSort (· ≤ ·))[k]? = some x := by
  obtain ⟨s, hp, hs, hk⟩ := h
  have hs' : s.Sorted (· ≤ ·) := by
    refine List.Pairwise.imp ?_ hs
    intro a b hab
    simp only [decide_eq_false_iff_not, not_lt] at hab
    exact hab
  have : s = column.insertionSort (· ≤ ·) :=
    List.eq_of_perm_of_sorted (hp.trans (List.perm_insertionSort _ column).symm) hs'
      (List.sorted_insertionSort _ column)
  rw [← this, hk]

theorem collected_survivors (self : asset_bitasset_data_master P) (ct : Nat) :
    (collect_feeds self.options.feed_lifetime_sec ct self.feeds ([], ct)).1 = survivors self ct := by
  rw [collect_feeds_eq]
  simp [survivors, live_entries]

/-- C5 (per-field median): under the contract of `std::nth_element` and a strict weak order
on prices, when `n >= 1` feeds survive and `n >= minimum_feeds`, `update_median_feeds`
returns, and each field of `current_feed` is the entry at index `n / 2` of the survivors'
values of that field sorted ascending, each field on its own; a single survivor is taken
over verbatim. -/
theorem update_median_feeds_median [DecidableEq P] (env : feed_env P)
    (hc : nth_element_contract env.nth_element) (hlt : strict_weak_order env.price_lt)
    (self : asset_bitasset_data_master P) (current_time next_maintenance_time : Nat)
    (hn : 1 ≤ (survivors self current_time).length)
    (hmin : self.options.minimum_feeds ≤ (survivors self current_time).length) :
    ∃ r, update_median_feeds env self current_time next_maintenance_time = some r ∧
      ascending_pick env.price_lt
        ((survivors self current_time).map (fun f => f.settlement_price))
        ((survivors self current_time).length / 2) r.current_feed.settlement_price ∧
      (((survivors self current_time).map (fun f => f.maintenance_collateral_ratio)).insertionSort
        (· ≤ ·))[(survivors self current_time).length / 2]?
          = some r.current_feed.maintenance_collateral_ratio ∧
      (((survivors self current_time).map (fun f => f.maximum_short_squeeze_ratio)).insertionSort
        (· ≤ ·))[(survivors self current_time).length / 2]?
          = some r.current_feed.maximum_short_squeeze_ratio ∧
      ascending_pick env.price_lt
        ((survivors self current_time).map (fun f => f.core_exchange_rate))
        ((survivors self current_time).length / 2) r.current_feed.core_exchange_rate ∧
      (∀ f, survivors self current_time = [f] → r.current_feed = f) := by
  have hcs := collected_survivors self current_time
  generalize survivors self current_time = l0 at *
  obtain ⟨m, hm, a1, a2, a3, a4⟩ := median_feed_some env hc hlt l0 hn
  unfold update_median_feeds
  simp only [hcs]
  rw [if_neg (by omega)]
  by_cases h1 : l0.length = 1
  · rw [if_pos h1]
    obtain ⟨f, rfl⟩ := List.length_eq_one.mp h1
    simp only [List.head?_cons]
    refine ⟨_, rfl, ?_, ?_, ?_, ?_, ?_⟩
    · exact ⟨[f.settlement_price], List.Perm.refl _, List.pairwise_singleton _ _, by simp⟩
    · simp
    · simp
    · exact ⟨[f.core_exchange_rate], List.Perm.refl _, List.pairwise_singleton _ _, by simp⟩
    · intro g hg
      simp only [List.cons.injEq, and_true] at hg
      exact hg
  · rw [if_neg h1]
    simp only [hm]
    refine ⟨_, rfl, a1, ascending_pick_nat _ _ _ a2, ascending_pick_nat _ _ _ a3, a4, ?_⟩
    intro f hf
    rw [hf] at h1
    exact absurd rfl h1

/-- Witness for C5: three live feeds of which none holds both the
median core exchange rate and the median maintenance collateral ratio; the result takes the
settlement price and the squeeze ratio of the second, the collateral ratio of the first and
the core exchange rate of the third. -/
theorem update_median_feeds_median_witness :
    (∃ r, update_median_feeds sample_env
        ⟨1, ⟨60, 1, 0, 0⟩,
          [(1, 990, ⟨10, 1750, 1100, 3⟩), (2, 995, ⟨20, 1600, 1200, 1⟩),
            (3, 999, ⟨30, 1900, 1300, 2⟩)],
          ⟨4, 4, 4, 4⟩, 17, 3, false, 0⟩ 1000 2000 = some r ∧
      r.current_feed.maintenance_collateral_ratio = 1750 ∧
      r.current_feed.core_exchange_rate = 2) ∧
    (update_median_feeds sample_env
        ⟨1, ⟨60, 1, 0, 0⟩,
          [(1, 990, ⟨10, 1750, 1100, 3⟩), (2, 995, ⟨20, 1600, 1200, 1⟩),
            (3, 999, ⟨30, 1900, 1300, 2⟩)],
          ⟨4, 4, 4, 4⟩, 17, 3, false, 0⟩ 1000 2000).map (fun r => r.current_feed)
      = some ⟨20, 1750, 1200, 2⟩ := by
  refine ⟨?_, by decide⟩
  obtain ⟨r, hr, -, h2, -, h4, -⟩ := update_median_feeds_median sample_env
    sort_nth_element_contract strict_weak_order_nat
    ⟨1, ⟨60, 1, 0, 0⟩,
      [(1, 990, ⟨10, 1750, 1100, 3⟩), (2, 995, ⟨20, 1600, 1200, 1⟩),
        (3, 999, ⟨30, 1900, 1300, 2⟩)],
      ⟨4, 4, 4, 4⟩, 17, 3, false, 0⟩ 1000 2000 (by decide) (by decide)
  refine ⟨r, hr, ?_, ?_⟩
  · have e : some (1750 : Nat) = some r.current_feed.maintenance_collateral_ratio := h2
    exact (Option.some.inj e).symm
  · obtain ⟨s, hp, hs, hk⟩ := h4
    have := ascending_pick_nat _ _ _ (⟨s, hp, hs, hk⟩ : ascending_pick
      (fun a b : Nat => decide (a < b)) [3, 1, 2] 1 r.current_feed.core_exchange_rate)
    have e : some (2 : Nat) = some r.current_feed.core_exchange_rate := this
    exact (Option.some.inj e).symm

/-- C10 (feed aggregation never fails) fails on the code: with `minimum_feeds = 0` and no
surviving feed the test `size() < minimum_feeds` does not hold, neither early return is
taken, and the median calculation reads `current_feeds` at its end. -/
theorem update_median_feeds_reads_past_end :
    update_median_feeds sample_env
      ⟨1, ⟨60, 0, 0, 0⟩, [(3, 900, ⟨9, 9, 9, 9⟩)], ⟨4, 4, 4, 4⟩, 17, 3, false, 0⟩ 1000 2000
        = none := by
  decide

/-- Where the guard of the first branch covers the empty case: under the contract of
`std::nth_element` and a strict weak order on prices, `update_median_feeds` returns a result
for every state, `current_time` and `next_maintenance_time` for which `minimum_feeds` is at
least 1 or at least one feed survives; the median position `n / 2` then lies within the `n`
surviving feeds whenever `minimum_feeds <= n`. -/
theorem update_median_feeds_defined [DecidableEq P] (env : feed_env P)
    (hc : nth_element_contract env.nth_element) (hlt : strict_weak_order env.price_lt)
    (self : asset_bitasset_data_master P) (current_time next_maintenance_time : Nat)
    (h : 1 ≤ self.options.minimum_feeds ∨ 1 ≤ (survivors self current_time).length) :
    (∃ r, update_median_feeds env self current_time next_maintenance_time = some r) ∧
    (self.options.minimum_feeds ≤ (survivors self current_time).length →
      (survivors self current_time).length / 2 < (survivors self current_time).length) := by
  have hcs := collected_survivors self current_time
  generalize survivors self current_time = l0 at *
  constructor
  · unfold update_median_feeds
    simp only [hcs]
    by_cases h0 : l0.length < self.options.minimum_feeds
    · rw [if_pos h0]
      exact ⟨_, rfl⟩
    · rw [if_neg h0]
      by_cases h1 : l0.length = 1
      · rw [if_pos h1]
        obtain ⟨f, rfl⟩ := List.length_eq_one.mp h1
        exact ⟨_, rfl⟩
      · rw [if_neg h1]
        obtain ⟨m, hm, -⟩ := median_feed_some env hc hlt l0 (by omega)
        simp only [hm]
        exact ⟨_, rfl⟩
  · intro hmin
    exact Nat.div_lt_self (by omega) (by norm_num)

/-- Two live feeds with `minimum_feeds = 0`: the call returns. -/
theorem update_median_feeds_defined_witness :
    ∃ r, update_median_feeds sample_env
      ⟨1, ⟨60, 0, 0, 0⟩, [(1, 990, ⟨10, 1750, 1100, 3⟩), (2, 995, ⟨20, 1600, 1200, 1⟩)],
        ⟨4, 4, 4, 4⟩, 17, 3, false, 0⟩ 1000 2000 = some r :=
  (update_median_feeds_defined sample_env sort_nth_element_contract strict_weak_order_nat
    ⟨1, ⟨60, 0, 0, 0⟩, [(1, 990, ⟨10, 1750, 1100, 3⟩), (2, 995, ⟨20, 1600, 1200, 1⟩)],
      ⟨4, 4, 4, 4⟩, 17, 3, false, 0⟩ 1000 2000 (Or.inr (by decide))).1

/-! ## What a call of `update_median_feeds` leaves behind -/

theorem update_median_feeds_result [DecidableEq P] (env : feed_env P)
    (self r : asset_bitasset_data_master P) (current_time next_maintenance_time : Nat)
    (h : update_median_feeds env self current_time next_maintenance_time = some r) :
    ((survivors self current_time).length < self.options.minimum_feeds ∧
      r.current_feed = env.null_feed ∧ r.feed_cer_updated = false ∧
      r.current_feed_publication_time = current_time ∧
      r.current_maintenance_collateralization =
        if decide (env.HARDFORK_CORE_1270_TIME < next_maintenance_time) = true then env.null_price
        else self.current_maintenance_collateralization) ∨
    (self.options.minimum_feeds ≤ (survivors self current_time).length ∧
      r.feed_cer_updated =
        (if self.current_feed.core_exchange_rate ≠ r.current_feed.core_exchange_rate then true
          else self.feed_cer_updated) ∧
      r.current_feed_publication_time =
        (collect_feeds self.options.feed_lifetime_sec current_time self.feeds
          ([], current_time)).2 ∧
      r.current_maintenance_collateralization =
        if decide (env.HARDFORK_CORE_1270_TIME < next_maintenance_time) = true then
          env.maintenance_collateralization r.current_feed
        else self.current_maintenance_collateralization) := by
  have hcs := collected_survivors self current_time
  generalize survivors self current_time = l0 at *
  unfold update_median_feeds at h
  simp only [hcs] at h
  by_cases h0 : l0.length < self.options.minimum_feeds
  · rw [if_pos h0] at h
    left
    have e := Option.some.inj h
    subst e
    exact ⟨h0, rfl, rfl, rfl, rfl⟩
  · rw [if_neg h0] at h
    right
    by_cases h1 : l0.length = 1
    · rw [if_pos h1] at h
      obtain ⟨f, rfl⟩ := List.length_eq_one.mp h1
      simp only [List.head?_cons] at h
      have e := Option.some.inj h
      subst e
      exact ⟨by omega, rfl, rfl, rfl⟩
    · rw [if_neg h1] at h
      cases hm : median_feed env l0 with
      | none => rw [hm] at h; exact absurd h (by simp)
      | some m =>
        rw [hm] at h
        have e := Option.some.inj h
        subst e
        exact ⟨by omega, rfl, rfl, rfl⟩

theorem update_median_feeds_some [DecidableEq P] (env : feed_env P)
    (hc : nth_element_contract env.nth_element) (hlt : strict_weak_order env.price_lt)
    (self : asset_bitasset_data_master P) (current_time next_maintenance_time : Nat)
    (h : 1 ≤ self.options.minimum_feeds ∨ 1 ≤ (survivors self current_time).length) :
    ∃ r, update_median_feeds env self current_time next_maintenance_time = some r := by
  have hcs := collected_survivors self current_time
  generalize survivors self current_time = l0 at *
  unfold update_median_feeds
  simp only [hcs]
  by_cases h0 : l0.length < self.options.minimum_feeds
  · rw [if_pos h0]
    exact ⟨_, rfl⟩
  · rw [if_neg h0]
    by_cases h1 : l0.length = 1
    · rw [if_pos h1]
      obtain ⟨f, rfl⟩ := List.length_eq_one.mp h1
      exact ⟨_, rfl⟩
    · rw [if_neg h1]
      obtain ⟨m, hm, -⟩ := median_feed_some env hc hlt l0 (by omega)
      simp only [hm]
      exact ⟨_, rfl⟩

/-- C11, as stated, fails: with the flag set before the call and a single live feed whose
core exchange rate equals the current one, the rate does not change and the flag stays
set; and when too few feeds survive, the rate changes to the default one while the flag is
cleared. -/
theorem feed_cer_updated_counterexample :
    (∃ r, update_median_feeds sample_env
        ⟨1, ⟨60, 1, 0, 0⟩, [(1, 990, ⟨10, 1750, 1100, 4⟩)], ⟨4, 4, 4, 4⟩, 17, 3, true, 0⟩
        1000 2000 = some r ∧
      r.feed_cer_updated = true ∧ r.current_feed.core_exchange_rate = 4) ∧
    (∃ r, update_median_feeds sample_env
        ⟨1, ⟨60, 2, 0, 0⟩, [(1, 990, ⟨10, 1750, 1100, 4⟩)], ⟨4, 4, 4, 4⟩, 17, 3, true, 0⟩
        1000 2000 = some r ∧
      r.feed_cer_updated = false ∧ r.current_feed.core_exchange_rate = 0) := by
  constructor <;> exact ⟨_, rfl, by decide, by decide⟩

/-- C11 (dirty flag), amended: under the contract of `std::nth_element`, a call of
`update_median_feeds` returns, and when fewer feeds than `minimum_feeds` survive
`feed_cer_updated` is false after it; otherwise the flag is true after the call exactly when
it was true before or the call changed `current_feed.core_exchange_rate`, so that from a
cleared flag it is true if and only if the core exchange rate changed. -/
theorem feed_cer_updated_after [DecidableEq P] (env : feed_env P)
    (hc : nth_element_contract env.nth_element) (hlt : strict_weak_order env.price_lt)
    (self : asset_bitasset_data_master P) (current_time next_maintenance_time : Nat)
    (h : 1 ≤ self.options.minimum_feeds ∨ 1 ≤ (survivors self current_time).length) :
    ∃ r, update_median_feeds env self current_time next_maintenance_time = some r ∧
      ((survivors self current_time).length < self.options.minimum_feeds →
        r.feed_cer_updated = false) ∧
      (self.options.minimum_feeds ≤ (survivors self current_time).length →
        (r.feed_cer_updated = true ↔ (self.feed_cer_updated = true ∨
          r.current_feed.core_exchange_rate ≠ self.current_feed.core_exchange_rate))) ∧
      (self.options.minimum_feeds ≤ (survivors self current_time).length →
        self.feed_cer_updated = false →
        (r.feed_cer_updated = true ↔
          r.current_feed.core_exchange_rate ≠ self.current_feed.core_exchange_rate)) := by
  obtain ⟨r, hr⟩ := update_median_feeds_some env hc hlt self current_time next_maintenance_time h
  refine ⟨r, hr, ?_, ?_, ?_⟩
  · intro hn
    rcases update_median_feeds_result env self r current_time next_maintenance_time hr with
      ⟨-, -, hf, -⟩ | ⟨hge, -⟩
    · exact hf
    · omega
  · intro hn
    rcases update_median_feeds_result env self r current_time next_maintenance_time hr with
      ⟨hlt', -⟩ | ⟨-, hf, -⟩
    · omega
    · rw [hf]
      by_cases hne : self.current_feed.core_exchange_rate ≠ r.current_feed.core_exchange_rate
      · rw [if_pos hne]
        exact ⟨fun _ => Or.inr (Ne.symm hne), fun _ => rfl⟩
      · rw [if_neg hne]
        have heq : r.current_feed.core_exchange_rate = self.current_feed.core_exchange_rate := by
          by_contra hc'; exact hne (Ne.symm hc')
        simp [heq]
  · intro hn hfalse
    rcases update_median_feeds_result env self r current_time next_maintenance_time hr with
      ⟨hlt', -⟩ | ⟨-, hf, -⟩
    · omega
    · rw [hf, hfalse]
      by_cases hne : self.current_feed.core_exchange_rate ≠ r.current_feed.core_exchange_rate
      · rw [if_pos hne]
        exact ⟨fun _ => Ne.symm hne, fun _ => rfl⟩
      · rw [if_neg hne]
        have heq : r.current_feed.core_exchange_rate = self.current_feed.core_exchange_rate := by
          by_contra hc'; exact hne (Ne.symm hc')
        simp [heq]

/-- Witness for C11: a cleared flag and a single live feed with a new core exchange rate. -/
theorem feed_cer_updated_after_witness :
    ∃ r, update_median_feeds sample_env
        ⟨1, ⟨60, 1, 0, 0⟩, [(1, 990, ⟨10, 1750, 1100, 3⟩)], ⟨4, 4, 4, 4⟩, 17, 3, false, 0⟩
        1000 2000 = some r ∧ r.feed_cer_updated = true := by
  obtain ⟨r, hr, -, -, h3⟩ := feed_cer_updated_after sample_env sort_nth_element_contract
    strict_weak_order_nat
    ⟨1, ⟨60, 1, 0, 0⟩, [(1, 990, ⟨10, 1750, 1100, 3⟩)], ⟨4, 4, 4, 4⟩, 17, 3, false, 0⟩
    1000 2000 (Or.inl (by decide))
  refine ⟨r, hr, (h3 (by decide) rfl).mpr ?_⟩
  have e : some r = some (⟨1, ⟨60, 1, 0, 0⟩, [(1, 990, ⟨10, 1750, 1100, 3⟩)],
      ⟨10, 1750, 1100, 3⟩, 990, 10, true, 0⟩ : asset_bitasset_data_master Nat) :=
    hr.symm.trans (by decide)
  rw [Option.some.inj e]
  decide

theorem foldl_min_spec (l : List Nat) : ∀ a : Nat,
    l.foldl min a ≤ a ∧ (∀ x ∈ l, l.foldl min a ≤ x) ∧ (l.foldl min a = a ∨ l.foldl min a ∈ l) := by
  induction l with
  | nil => intro a; simp
  | cons y ys ih =>
    intro a
    obtain ⟨h1, h2, h3⟩ := ih (min a y)
    simp only [List.foldl_cons]
    refine ⟨le_trans h1 (min_le_left _ _), ?_, ?_⟩
    · intro x hx
      rcases List.mem_cons.mp hx with rfl | hx
      · exact le_trans h1 (min_le_right _ _)
      · exact h2 x hx
    · rcases h3 with h3 | h3
      · rcases le_total a y with hay | hay
        · left; rw [h3, min_eq_left hay]
        · right; rw [h3, min_eq_right hay]; exact List.mem_cons_self _ _
      · right; exact List.mem_cons_of_mem _ h3

theorem survivors_length (self : asset_bitasset_data_master P) (ct : Nat) :
    (survivors self ct).length = (live_entries self ct).length := by
  simp [survivors]

/-- C12, as stated, fails: the only surviving feed carries the time 1005, later than the
current time 1000, and the publication time after the call is 1000. -/
theorem publication_time_counterexample :
    ∃ r, update_median_feeds sample_env
        ⟨1, ⟨60, 1, 0, 0⟩, [(1, 1005, ⟨10, 1750, 1100, 3⟩)], ⟨4, 4, 4, 4⟩, 17, 3, false, 0⟩
        1000 2000 = some r ∧
      r.current_feed_publication_time = 1000 ∧
      live_entries
        (⟨1, ⟨60, 1, 0, 0⟩, [(1, 1005, ⟨10, 1750, 1100, 3⟩)], ⟨4, 4, 4, 4⟩, 17, 3, false, 0⟩ :
          asset_bitasset_data_master Nat) 1000 = [(1, 1005, ⟨10, 1750, 1100, 3⟩)] :=
  ⟨_, rfl, by decide, by decide⟩

/-- C12 (publication time), amended: under the contract of `std::nth_element`, when at least
one and at least `minimum_feeds` feeds survive, `update_median_feeds` returns and
`current_feed_publication_time` is the smaller of `current_time` and the earliest time among
the surviving feeds; it is that earliest time whenever some surviving feed is not later than
`current_time`. -/
theorem publication_time_after [DecidableEq P] (env : feed_env P)
    (hc : nth_element_contract env.nth_element) (hlt : strict_weak_order env.price_lt)
    (self : asset_bitasset_data_master P) (current_time next_maintenance_time : Nat)
    (hn : 1 ≤ (live_entries self current_time).length)
    (hmin : self.options.minimum_feeds ≤ (live_entries self current_time).length) :
    ∃ r, update_median_feeds env self current_time next_maintenance_time = some r ∧
      r.current_feed_publication_time ≤ current_time ∧
      (∀ e ∈ live_entries self current_time, r.current_feed_publication_time ≤ e.2.1) ∧
      (r.current_feed_publication_time = current_time ∨
        ∃ e ∈ live_entries self current_time, r.current_feed_publication_time = e.2.1) ∧
      ((∃ e ∈ live_entries self current_time, e.2.1 ≤ current_time) →
        ∃ e ∈ live_entries self current_time, r.current_feed_publication_time = e.2.1 ∧
          ∀ e' ∈ live_entries self current_time, e.2.1 ≤ e'.2.1) := by
  have hlen := survivors_length self current_time
  obtain ⟨r, hr⟩ := update_median_feeds_some env hc hlt self current_time next_maintenance_time
    (Or.inr (by omega))
  have hpub : r.current_feed_publication_time =
      ((live_entries self current_time).map (fun f => f.2.1)).foldl min current_time := by
    rcases update_median_feeds_result env self r current_time next_maintenance_time hr with
      ⟨hlt', -⟩ | ⟨-, -, hp, -⟩
    · omega
    · rw [hp, collect_feeds_eq]
      rfl
  obtain ⟨h1, h2, h3⟩ :=
    foldl_min_spec ((live_entries self current_time).map (fun f => f.2.1)) current_time
  rw [← hpub] at h1 h2 h3
  have hall : ∀ e ∈ live_entries self current_time, r.current_feed_publication_time ≤ e.2.1 :=
    fun e he => h2 e.2.1 (List.mem_map_of_mem _ he)
  have hor : r.current_feed_publication_time = current_time ∨
      ∃ e ∈ live_entries self current_time, r.current_feed_publication_time = e.2.1 := by
    rcases h3 with h3 | h3
    · exact Or.inl h3
    · obtain ⟨e, he, hee⟩ := List.mem_map.mp h3
      exact Or.inr ⟨e, he, hee.symm⟩
  refine ⟨r, hr, h1, hall, hor, ?_⟩
  rintro ⟨e0, he0, hle0⟩
  rcases hor with hct | ⟨e, he, hee⟩
  · have hge := hall e0 he0
    refine ⟨e0, he0, by omega, ?_⟩
    intro e' he'
    have := hall e' he'
    omega
  · refine ⟨e, he, hee, ?_⟩
    intro e' he'
    have := hall e' he'
    omega

/-- Witness for C12: live feeds published at 990 and 995, seen at time 1000. -/
theorem publication_time_after_witness :
    ∃ r, update_median_feeds sample_env
        ⟨1, ⟨60, 1, 0, 0⟩, [(1, 990, ⟨10, 1750, 1100, 3⟩), (2, 995, ⟨20, 1600, 1200, 1⟩)],
          ⟨4, 4, 4, 4⟩, 17, 3, false, 0⟩ 1000 2000 = some r ∧
      r.current_feed_publication_time ≤ 1000 := by
  obtain ⟨r, hr, h1, -⟩ := publication_time_after sample_env sort_nth_element_contract
    strict_weak_order_nat
    ⟨1, ⟨60, 1, 0, 0⟩, [(1, 990, ⟨10, 1750, 1100, 3⟩), (2, 995, ⟨20, 1600, 1200, 1⟩)],
      ⟨4, 4, 4, 4⟩, 17, 3, false, 0⟩ 1000 2000 (by decide) (by decide)
  exact ⟨r, hr, h1⟩

/-- C13 (hardfork gating): in every result of `update_median_feeds`,
`current_maintenance_collateralization` is unchanged when `next_maintenance_time` is not
later than `HARDFORK_CORE_1270_TIME`; when it is later, the field is the maintenance
collateralization of the new `current_feed` if at least `minimum_feeds` feeds survive and
the default price otherwise; and the call returns under the contract of `std::nth_element`
whenever `minimum_feeds` is at least 1 or a feed survives. -/
theorem maintenance_collateralization_gating [DecidableEq P] (env : feed_env P)
    (self : asset_bitasset_data_master P) (current_time next_maintenance_time : Nat) :
    (∀ r, update_median_feeds env self current_time next_maintenance_time = some r →
      (next_maintenance_time ≤ env.HARDFORK_CORE_1270_TIME →
        r.current_maintenance_collateralization = self.current_maintenance_collateralization) ∧
      (env.HARDFORK_CORE_1270_TIME < next_maintenance_time →
        self.options.minimum_feeds ≤ (survivors self current_time).length →
        r.current_maintenance_collateralization =
          env.maintenance_collateralization r.current_feed) ∧
      (env.HARDFORK_CORE_1270_TIME < next_maintenance_time →
        (survivors self current_time).length < self.options.minimum_feeds →
        r.current_maintenance_collateralization = env.null_price)) ∧
    (nth_element_contract env.nth_element → strict_weak_order env.price_lt →
      (1 ≤ self.options.minimum_feeds ∨ 1 ≤ (survivors self current_time).length) →
      ∃ r, update_median_feeds env self current_time next_maintenance_time = some r) := by
  refine ⟨?_, fun hc hlt h =>
    update_median_feeds_some env hc hlt self current_time next_maintenance_time h⟩
  intro r hr
  rcases update_median_feeds_result env self r current_time next_maintenance_time hr with
    ⟨hlt', -, -, -, hm⟩ | ⟨hge, -, -, hm⟩
  · refine ⟨?_, ?_, ?_⟩
    · intro hle
      rw [hm, if_neg (by simp; omega)]
    · intro _ hge; omega
    · intro hgt _
      rw [hm, if_pos (by simpa using hgt)]
  · refine ⟨?_, ?_, ?_⟩
    · intro hle
      rw [hm, if_neg (by simp; omega)]
    · intro hgt _
      rw [hm, if_pos (by simpa using hgt)]
    · intro _ hlt'; omega

/-- Witness for C13: before the hardfork time a call with two live feeds keeps the
maintenance collateralization 3 it found. -/
theorem maintenance_collateralization_gating_witness :
    ∃ r, update_median_feeds sample_env
        ⟨1, ⟨60, 1, 0, 0⟩, [(1, 990, ⟨10, 1750, 1100, 3⟩), (2, 995, ⟨20, 1600, 1200, 1⟩)],
          ⟨4, 4, 4, 4⟩, 17, 3, false, 0⟩ 1000 1000 = some r ∧
      r.current_maintenance_collateralization = 3 := by
  have h := maintenance_collateralization_gating sample_env
    ⟨1, ⟨60, 1, 0, 0⟩, [(1, 990, ⟨10, 1750, 1100, 3⟩), (2, 995, ⟨20, 1600, 1200, 1⟩)],
      ⟨4, 4, 4, 4⟩, 17, 3, false, 0⟩ 1000 1000
  obtain ⟨r, hr⟩ := h.2 sort_nth_element_contract strict_weak_order_nat (Or.inl (by decide))
  exact ⟨r, hr, (h.1 r hr).1 (by decide)⟩

/-- C14 (purity of the consensus feed): two states with the same feeds and options, whatever
their other members, are left by `update_median_feeds` at the same `current_time`, and at
any two values of `next_maintenance_time`, with the same `current_feed` and the same
`current_feed_publication_time` (and the call returns for the one exactly when it returns
for the other). -/
theorem consensus_feed_pure [DecidableEq P] (env : feed_env P)
    (s1 s2 : asset_bitasset_data_master P) (current_time n1 n2 : Nat)
    (hf : s1.feeds = s2.feeds) (ho : s1.options = s2.options) :
    (update_median_feeds env s1 current_time n1).map
        (fun r => (r.current_feed, r.current_feed_publication_time)) =
      (update_median_feeds env s2 current_time n2).map
        (fun r => (r.current_feed, r.current_feed_publication_time)) := by
  unfold update_median_feeds
  simp only [hf, ho]
  generalize collect_feeds s2.options.feed_lifetime_sec current_time s2.feeds
    ([], current_time) = c
  by_cases h1 : c.1.length < s2.options.minimum_feeds
  · simp only [h1, if_true, Option.map_some']
  · simp only [h1, if_false]
    by_cases h2 : c.1.length = 1
    · simp only [h2, if_true]
      cases c.1.head? <;> rfl
    · simp only [h2, if_false]
      cases median_feed env c.1 <;> rfl

/-- Witness for C14: two states with the same three feeds and options and different
derived members, called at different maintenance times. -/
theorem consensus_feed_pure_witness :
    (update_median_feeds sample_env
        ⟨1, ⟨60, 1, 0, 0⟩,
          [(1, 990, ⟨10, 1750, 1100, 3⟩), (2, 995, ⟨20, 1600, 1200, 1⟩),
            (3, 999, ⟨30, 1900, 1300, 2⟩)],
          ⟨4, 4, 4, 4⟩, 17, 3, false, 0⟩ 1000 2000).map
        (fun r => (r.current_feed, r.current_feed_publication_time)) =
      (update_median_feeds sample_env
        ⟨1, ⟨60, 1, 0, 0⟩,
          [(1, 990, ⟨10, 1750, 1100, 3⟩), (2, 995, ⟨20, 1600, 1200, 1⟩),
            (3, 999, ⟨30, 1900, 1300, 2⟩)],
          ⟨8, 8, 8, 8⟩, 500, 9, true, 0⟩ 1000 900).map
        (fun r => (r.current_feed, r.current_feed_publication_time)) :=
  consensus_feed_pure sample_env _ _ 1000 2000 900 rfl rfl

/-! ## Claims on the sign and the supply bound -/

/-- C15 (supply bound) fails on the code: with a maximum share supply of 10^15 and
precision 0 the text `0-2000000000000000` is accepted and yields 2 * 10^15. The supply check
sees the negative sum read from `-2000000000000000` and the negation comes after it. -/
theorem amount_from_string_exceeds_supply :
    amount_from_string 1000000000000000 ⟨7, 0⟩ "0-2000000000000000".toList =
      some ⟨2000000000000000, 7⟩ := by
  decide

/-- C16 (sign position) fails on the code: at precision 2 the text `1-5`, whose `-` is not
the leading character, is accepted and yields 500. -/
theorem amount_from_string_inner_sign :
    amount_from_string 1000000000000000 ⟨7, 2⟩ "1-5".toList = some ⟨500, 7⟩ := by
  decide

/-- C18 (sign symmetry) fails on the code: at precision 2 the text `.3` yields 30, while
`-.3` is rejected, the text cut out for the integer part being `.`. -/
theorem amount_from_string_sign_asymmetry :
    amount_from_string 1000000000000000 ⟨7, 2⟩ ".3".toList = some ⟨30, 7⟩ ∧
    amount_from_string 1000000000000000 ⟨7, 2⟩ "-.3".toList = none ∧
    substr "-.3".toList 1 (find "-.3".toList '.') = some ".".toList := by
  decide

/-! ## Printing what was parsed -/

theorem digitChar_digit_value (c : Char) (h : isdigit c = true) :
    Nat.digitChar (digit_value c) = c := by
  simp only [isdigit, Bool.and_eq_true, decide_eq_true_eq] at h
  have hc : Char.ofNat c.toNat = c := Char.ofNat_toNat c
  simp only [digit_value]
  generalize c.toNat = n at h hc
  obtain ⟨h1, h2⟩ := h
  subst hc
  interval_cases n <;> rfl

theorem digit_value_pos (c : Char) (h : isdigit c = true) (h0 : c ≠ '0') : 1 ≤ digit_value c := by
  by_contra hlt
  have hz : digit_value c = 0 := by omega
  have := digitChar_digit_value c h
  rw [hz] at this
  exact h0 this.symm

theorem digits_value_snoc (acc : Nat) (s : List Char) (c : Char) :
    digits_value acc (s ++ [c]) = 10 * digits_value acc s + digit_value c := by
  simp [digits_value, List.foldl_append]

theorem digit_value_lt (c : Char) (h : isdigit c = true) : digit_value c < 10 := by
  simp only [isdigit, Bool.and_eq_true, decide_eq_true_eq] at h
  simp only [digit_value]
  omega

theorem frac_digits_digits_value (F : List Char) (hF : ∀ c ∈ F, isdigit c = true) :
    ∀ acc, frac_digits F.length (digits_value acc F) = F := by
  induction F using List.reverseRecOn with
  | nil => intro acc; rfl
  | append_singleton F c ih =>
    intro acc
    have hc := hF c (by simp)
    have hlt := digit_value_lt c hc
    rw [digits_value_snoc, List.length_append, List.length_singleton]
    simp only [frac_digits]
    have e1 : (10 * digits_value acc F + digit_value c) / 10 = digits_value acc F := by omega
    have e2 : (10 * digits_value acc F + digit_value c) % 10 = digit_value c := by omega
    rw [e1, e2, ih (fun x hx => hF x (by simp [hx])), digitChar_digit_value c hc]

theorem digits_value_ge (s : List Char) : ∀ acc, acc ≤ digits_value acc s := by
  induction s with
  | nil => intro acc; exact le_refl _
  | cons c cs ih =>
    intro acc
    have : digits_value acc (c :: cs) = digits_value (10 * acc + digit_value c) cs := rfl
    rw [this]
    exact le_trans (by omega) (ih _)

theorem toDigits_digits_value_of_leading (c : Char) (hc : isdigit c = true) (rest : List Char) :
    (∀ x ∈ rest, isdigit x = true) → (rest ≠ [] → c ≠ '0') →
    Nat.toDigits 10 (digits_value 0 (c :: rest)) = c :: rest := by
  induction rest using List.reverseRecOn with
  | nil =>
    intro _ _
    have : digits_value 0 [c] = digit_value c := by simp [digits_value]
    rw [this, toDigits_small _ (digit_value_lt c hc), digitChar_digit_value c hc]
  | append_singleton rest d ih =>
    intro hr hne
    have hc0 : c ≠ '0' := hne (by simp)
    have hd := hr d (by simp)
    have hlt := digit_value_lt d hd
    have hge : 1 ≤ digits_value 0 (c :: rest) := by
      have h1 : digits_value 0 (c :: rest) = digits_value (10 * 0 + digit_value c) rest := rfl
      have h2 := digits_value_ge rest (10 * 0 + digit_value c)
      have h3 := digit_value_pos c hc hc0
      omega
    have e : c :: (rest ++ [d]) = (c :: rest) ++ [d] := rfl
    rw [e, digits_value_snoc, toDigits_step _ (by omega)]
    have e1 : (10 * digits_value 0 (c :: rest) + digit_value d) / 10 =
        digits_value 0 (c :: rest) := by omega
    have e2 : (10 * digits_value 0 (c :: rest) + digit_value d) % 10 = digit_value d := by omega
    rw [e1, e2, ih (fun x hx => hr x (by simp [hx])) (fun _ => hc0),
      digitChar_digit_value d hd]

theorem toDigits_digits_value (I : List Char) : I ≠ [] → (∀ c ∈ I, isdigit c = true) →
    Nat.toDigits 10 (digits_value 0 I) = strip_leading_zeros I := by
  induction I with
  | nil => intro h; exact absurd rfl h
  | cons c cs ih =>
    intro _ hI
    have hc := hI c (List.mem_cons_self _ _)
    cases cs with
    | nil =>
      rw [toDigits_digits_value_of_leading c hc [] (by simp) (fun h => absurd rfl h)]
      rfl
    | cons d ds =>
      have hd := hI d (by simp)
      by_cases h0 : c = '0'
      · subst h0
        have hs : strip_leading_zeros ('0' :: d :: ds) = strip_leading_zeros (d :: ds) := by
          simp [strip_leading_zeros, hd]
        have hv : digits_value 0 ('0' :: d :: ds) = digits_value 0 (d :: ds) := rfl
        rw [hs, hv]
        exact ih (by simp) (fun x hx => hI x (List.mem_cons_of_mem _ hx))
      · have hs : strip_leading_zeros (c :: d :: ds) = c :: d :: ds := by
          simp [strip_leading_zeros, h0]
        rw [hs]
        exact toDigits_digits_value_of_leading c hc (d :: ds)
          (fun x hx => hI x (List.mem_cons_of_mem _ hx)) (fun _ => h0)

theorem strip_leading_zeros_append_dot (I F : List Char) : I ≠ [] →
    strip_leading_zeros (I ++ '.' :: F) = strip_leading_zeros I ++ '.' :: F := by
  induction I with
  | nil => intro h; exact absurd rfl h
  | cons c cs ih =>
    intro _
    cases cs with
    | nil =>
      simp [strip_leading_zeros, show isdigit '.' = false from rfl]
    | cons d ds =>
      have e : (c :: d :: ds) ++ '.' :: F = c :: d :: (ds ++ '.' :: F) := rfl
      rw [e]
      by_cases h : c = '0' ∧ isdigit d = true
      · have h1 : strip_leading_zeros (c :: d :: (ds ++ '.' :: F)) =
            strip_leading_zeros (d :: (ds ++ '.' :: F)) := by
          simp only [strip_leading_zeros, h, and_self, if_true]
        have h2 : strip_leading_zeros (c :: d :: ds) = strip_leading_zeros (d :: ds) := by
          simp only [strip_leading_zeros, h, and_self, if_true]
        rw [h1, h2]
        exact ih (by simp)
      · have h1 : strip_leading_zeros (c :: d :: (ds ++ '.' :: F)) =
            c :: d :: (ds ++ '.' :: F) := by
          simp only [strip_leading_zeros, h, if_false]
        have h2 : strip_leading_zeros (c :: d :: ds) = c :: d :: ds := by
          simp only [strip_leading_zeros, h, if_false]
        rw [h1, h2]
        rfl

theorem without_leading_zeros_digits (I rest : List Char) (hI : I ≠ [])
    (hId : ∀ c ∈ I, isdigit c = true) :
    without_leading_zeros (I ++ rest) = strip_leading_zeros (I ++ rest) := by
  cases I with
  | nil => exact absurd rfl hI
  | cons c cs =>
    have hc := (isdigit_not_special c (hId c (List.mem_cons_self _ _))).2.1
    simp only [List.cons_append, without_leading_zeros, hc, if_false]

theorem unsigned_text_parsed (p : Nat) (I F : List Char) (hI : I ≠ [])
    (hId : ∀ c ∈ I, isdigit c = true) (hFd : ∀ c ∈ F, isdigit c = true) (hF : F.length ≤ p) :
    unsigned_text p (digits_value 0 I * 10 ^ p + digits_value 0 F * 10 ^ (p - F.length)) =
      strip_leading_zeros I ++ printed_fraction p F := by
  have hval : digits_value 0 (F ++ List.replicate (p - F.length) '0') =
      digits_value 0 F * 10 ^ (p - F.length) := by
    rw [digits_value_append, digits_value_replicate_zero]
  have hd : ∀ c ∈ F ++ List.replicate (p - F.length) '0', isdigit c = true := by
    intro c hc
    rcases List.mem_append.mp hc with hc | hc
    · exact hFd c hc
    · rw [(List.mem_replicate.mp hc).2]; rfl
  have hlen : (F ++ List.replicate (p - F.length) '0').length = p := by
    simp only [List.length_append, List.length_replicate]; omega
  have hlt : digits_value 0 F * 10 ^ (p - F.length) < 10 ^ p := by
    have := digits_value_lt _ hd 0
    rw [hval, hlen] at this
    simpa using this
  have hpow : 0 < 10 ^ p := by positivity
  have hdiv : (digits_value 0 I * 10 ^ p + digits_value 0 F * 10 ^ (p - F.length)) / 10 ^ p =
      digits_value 0 I := by
    rw [Nat.add_comm, Nat.add_mul_div_right _ _ hpow, Nat.div_eq_of_lt hlt, Nat.zero_add]
  have hmod : (digits_value 0 I * 10 ^ p + digits_value 0 F * 10 ^ (p - F.length)) % 10 ^ p =
      digits_value 0 F * 10 ^ (p - F.length) := by
    rw [Nat.add_comm, Nat.add_mul_mod_self_right, Nat.mod_eq_of_lt hlt]
  have hfrac : frac_digits p (digits_value 0 F * 10 ^ (p - F.length)) =
      F ++ List.replicate (p - F.length) '0' := by
    have := frac_digits_digits_value _ hd 0
    rw [hlen, hval] at this
    exact this
  have hpos : 0 < 10 ^ (p - F.length) := by positivity
  unfold unsigned_text printed_fraction
  rw [hdiv, hmod, toDigits_digits_value I hI hId, hfrac]
  by_cases hz : digits_value 0 F = 0
  · simp [hz]
  · have hnz : digits_value 0 F * 10 ^ (p - F.length) ≠ 0 :=
      Nat.mul_ne_zero hz (by omega)
    rw [if_neg hnz, if_neg hz]

theorem unsigned_text_whole (p : Nat) (I : List Char) (hI : I ≠ [])
    (hId : ∀ c ∈ I, isdigit c = true) :
    unsigned_text p (digits_value 0 I * 10 ^ p) = strip_leading_zeros I := by
  have h := unsigned_text_parsed p I [] hI hId (by simp) (Nat.zero_le _)
  have e : digits_value 0 ([] : List Char) = 0 := rfl
  simp only [printed_fraction, e, Nat.zero_mul, Nat.add_zero, if_true, List.append_nil] at h
  exact h

theorem amount_to_string_neg_nat (o : asset_object) (hp : o.precision ≤ 18) (n : Nat) :
    amount_to_string o (-(n : Int)) =
      some (if n = 0 then unsigned_text o.precision n else '-' :: unsigned_text o.precision n) := by
  rcases Nat.eq_zero_or_pos n with h0 | hpos
  · subst h0
    have e : (-((0 : Nat) : Int)) = ((0 : Nat) : Int) := by simp
    rw [e, amount_to_string_natCast o hp 0]
    simp
  · rw [amount_to_string_neg_natCast o hp n hpos, if_neg (by omega)]

theorem parsed_value_cast (p : Nat) (I F : List Char) :
    parsed_value p I F =
      ((digits_value 0 I * 10 ^ p + digits_value 0 F * 10 ^ (p - F.length) : Nat) : Int) := by
  simp only [parsed_value]
  push_cast
  rfl

theorem format_after_parse_int_frac (M : Int) (o : asset_object) (I F : List Char)
    (hp : o.precision ≤ 18) (hI : I ≠ []) (hId : ∀ c ∈ I, isdigit c = true)
    (hFd : ∀ c ∈ F, isdigit c = true) (hF : F.length ≤ o.precision)
    (hM : M ≤ INT64_MAX) (hv : parsed_value o.precision I F ≤ M) :
    format_after_parse M o (I ++ '.' :: F) =
      some (strip_leading_zeros I ++ printed_fraction o.precision F) := by
  unfold format_after_parse
  rw [from_string_int_frac M o I F hp hI hId hFd hF hM hv]
  simp only [Option.some_bind]
  rw [parsed_value_cast, amount_to_string_natCast o hp,
    unsigned_text_parsed o.precision I F hI hId hFd hF]

theorem format_after_parse_neg_int_frac (M : Int) (o : asset_object) (I F : List Char)
    (hp : o.precision ≤ 18) (hI : I ≠ []) (hId : ∀ c ∈ I, isdigit c = true)
    (hFd : ∀ c ∈ F, isdigit c = true) (hF : F.length ≤ o.precision)
    (hM : M ≤ INT64_MAX) (hv : parsed_value o.precision I F ≤ M) :
    format_after_parse M o ('-' :: (I ++ '.' :: F)) =
      some (if digits_value 0 I = 0 ∧ digits_value 0 F = 0 then
          strip_leading_zeros I ++ printed_fraction o.precision F
        else '-' :: (strip_leading_zeros I ++ printed_fraction o.precision F)) := by
  unfold format_after_parse
  rw [from_string_neg_int_frac M o I F hp hI hId hFd hF hM hv]
  simp only [Option.some_bind]
  rw [parsed_value_cast, amount_to_string_neg_nat o hp,
    unsigned_text_parsed o.precision I F hI hId hFd hF]
  have hpow1 : 0 < 10 ^ o.precision := by positivity
  have hpow2 : 0 < 10 ^ (o.precision - F.length) := by positivity
  have hiff : (digits_value 0 I * 10 ^ o.precision +
      digits_value 0 F * 10 ^ (o.precision - F.length) = 0) ↔
      (digits_value 0 I = 0 ∧ digits_value 0 F = 0) := by
    constructor
    · intro h
      have h1 := Nat.eq_zero_of_add_eq_zero_right h
      have h2 := Nat.eq_zero_of_add_eq_zero_left h
      exact ⟨(Nat.mul_eq_zero.mp h1).resolve_right (by omega),
        (Nat.mul_eq_zero.mp h2).resolve_right (by omega)⟩
    · rintro ⟨h1, h2⟩
      rw [h1, h2]; simp
  by_cases hz : digits_value 0 I = 0 ∧ digits_value 0 F = 0
  · rw [if_pos (hiff.mpr hz), if_pos hz]
  · rw [if_neg (fun h => hz (hiff.mp h)), if_neg hz]

theorem format_after_parse_int (M : Int) (o : asset_object) (I : List Char)
    (hp : o.precision ≤ 18) (hI : I ≠ []) (hId : ∀ c ∈ I, isdigit c = true)
    (hM : M ≤ INT64_MAX) (hv : (digits_value 0 I : Int) * 10 ^ o.precision ≤ M) :
    format_after_parse M o I = some (strip_leading_zeros I) := by
  unfold format_after_parse
  rw [from_string_int M o I hp hI hId hM hv]
  simp only [Option.some_bind]
  have e : (digits_value 0 I : Int) * 10 ^ o.precision =
      ((digits_value 0 I * 10 ^ o.precision : Nat) : Int) := by push_cast; rfl
  rw [e, amount_to_string_natCast o hp, unsigned_text_whole o.precision I hI hId]

theorem format_after_parse_neg_int (M : Int) (o : asset_object) (I : List Char)
    (hp : o.precision ≤ 18) (hI : I ≠ []) (hId : ∀ c ∈ I, isdigit c = true)
    (hM : M ≤ INT64_MAX) (hv : (digits_value 0 I : Int) * 10 ^ o.precision ≤ M) :
    format_after_parse M o ('-' :: I) =
      some (if digits_value 0 I = 0 then strip_leading_zeros I
        else '-' :: strip_leading_zeros I) := by
  unfold format_after_parse
  rw [from_string_neg_int M o I hp hI hId hM hv]
  simp only [Option.some_bind]
  have e : (digits_value 0 I : Int) * 10 ^ o.precision =
      ((digits_value 0 I * 10 ^ o.precision : Nat) : Int) := by push_cast; rfl
  have hpow1 : 0 < 10 ^ o.precision := by positivity
  rw [e, amount_to_string_neg_nat o hp, unsigned_text_whole o.precision I hI hId]
  by_cases hz : digits_value 0 I = 0
  · rw [if_pos (by rw [hz]; simp), if_pos hz]
  · rw [if_neg (Nat.mul_ne_zero hz (by omega)), if_neg hz]

/-- C17, as stated, fails: at precision 2 the accepted text `1.5`, which has no leading zero
to remove, is read as 150 and printed back as `1.50`. -/
theorem format_after_parse_counterexample :
    format_after_parse 1000000000000000 ⟨7, 2⟩ "1.5".toList = some "1.50".toList ∧
    without_leading_zeros "1.5".toList = "1.5".toList ∧
    format_after_parse 1000000000000000 ⟨7, 2⟩ "1.5".toList ≠
      some (without_leading_zeros "1.5".toList) := by
  decide

/-- C17 (format after parse), amended: at a precision up to 18, for an accepted text made of
an optional `-`, a non-empty digit run `I` and optionally `.` and at most `p` digits `F`,
`amount_to_string` of the amount read by `amount_from_string` is the text with the redundant
leading zeros of `I` removed, with `F` padded with zeros on the right to `p` digits or
left out together with the `.` when all its digits are zero, and with the `-` left out when
the amount is zero; it is the text with only the leading zeros removed when `F` has
exactly `p` digits that are not all zero, or when there is no `.` and no `-`, or no `.` and a
non-zero amount. -/
theorem format_after_parse_canonical (max_share_supply : Int) (o : asset_object)
    (I F : List Char) (hp : o.precision ≤ 18) (hI : I ≠ []) (hId : ∀ c ∈ I, isdigit c = true)
    (hFd : ∀ c ∈ F, isdigit c = true) (hF : F.length ≤ o.precision)
    (hM : max_share_supply ≤ INT64_MAX)
    (hv : (digits_value 0 I : Int) * 10 ^ o.precision +
      (digits_value 0 F : Int) * 10 ^ (o.precision - F.length) ≤ max_share_supply) :
    format_after_parse max_share_supply o (I ++ '.' :: F) =
      some (strip_leading_zeros I ++ printed_fraction o.precision F) ∧
    format_after_parse max_share_supply o ('-' :: (I ++ '.' :: F)) =
      some (if digits_value 0 I = 0 ∧ digits_value 0 F = 0 then
          strip_leading_zeros I ++ printed_fraction o.precision F
        else '-' :: (strip_leading_zeros I ++ printed_fraction o.precision F)) ∧
    format_after_parse max_share_supply o I = some (strip_leading_zeros I) ∧
    format_after_parse max_share_supply o ('-' :: I) =
      some (if digits_value 0 I = 0 then strip_leading_zeros I
        else '-' :: strip_leading_zeros I) ∧
    (F.length = o.precision → digits_value 0 F ≠ 0 →
      format_after_parse max_share_supply o (I ++ '.' :: F) =
        some (without_leading_zeros (I ++ '.' :: F)) ∧
      format_after_parse max_share_supply o ('-' :: (I ++ '.' :: F)) =
        some (without_leading_zeros ('-' :: (I ++ '.' :: F)))) ∧
    format_after_parse max_share_supply o I = some (without_leading_zeros I) ∧
    (digits_value 0 I ≠ 0 →
      format_after_parse max_share_supply o ('-' :: I) =
        some (without_leading_zeros ('-' :: I))) := by
  have hb := parsed_value_bounds o.precision I F
  have hw : (digits_value 0 I : Int) * 10 ^ o.precision ≤ max_share_supply :=
    le_trans hb.2 hv
  have h1 := format_after_parse_int_frac max_share_supply o I F hp hI hId hFd hF hM hv
  have h2 := format_after_parse_neg_int_frac max_share_supply o I F hp hI hId hFd hF hM hv
  have h3 := format_after_parse_int max_share_supply o I hp hI hId hM hw
  have h4 := format_after_parse_neg_int max_share_supply o I hp hI hId hM hw
  refine ⟨h1, h2, h3, h4, ?_, ?_, ?_⟩
  · intro hlen hnz
    have hpf : printed_fraction o.precision F = '.' :: F := by
      simp [printed_fraction, hnz, hlen]
    constructor
    · rw [h1, hpf, without_leading_zeros_digits I _ hI hId,
        strip_leading_zeros_append_dot I F hI]
    · rw [h2, if_neg (fun h => hnz h.2), hpf]
      simp only [without_leading_zeros, if_true]
      rw [strip_leading_zeros_append_dot I F hI]
  · have := without_leading_zeros_digits I [] hI hId
    rw [List.append_nil] at this
    rw [h3, this]
  · intro hnz
    rw [h4, if_neg hnz]
    simp only [without_leading_zeros, if_true]

/-- Witness for C17: the texts `007.50` and `-007.50` at precision 2. -/
theorem format_after_parse_canonical_witness :
    format_after_parse 1000000000000000 ⟨7, 2⟩ "007.50".toList = some "7.50".toList ∧
    format_after_parse 1000000000000000 ⟨7, 2⟩ "-007.50".toList = some "-7.50".toList := by
  have h := (format_after_parse_canonical 1000000000000000 ⟨7, 2⟩ "007".toList "50".toList
    (by decide) (by decide) (by decide) (by decide) (by decide) (by decide) (by decide)).2.2.2.2.1
    (by decide) (by decide)
  exact ⟨h.1.trans (by decide), h.2.trans (by decide)⟩

/-! ## Claims on the restored asset tags and fields -/

/-- C19, as stated, fails: a target whose amounts are all tagged with asset 9 (backing
asset 8), restored from a snapshot taken of asset 5 (backing asset 4), ends with
`accumulated_fees` and `confidential_supply` tagged 5, `settlement_fund` tagged 4 and
`total_debt` tagged 5: the ids of the snapshot, none of which occurs in the target. -/
theorem restore_tag_source_counterexample :
    ((⟨(), ⟨9, 90⟩, ⟨9, 2⟩, ⟨9, 30⟩, ⟨9, 4⟩, ⟨9, 0⟩⟩ : asset_dynamic_data_object Unit).restore
      ⟨(), ⟨100, 5⟩, 1, 20, 3⟩).accumulated_fees = ⟨5, 1⟩ ∧
    ((⟨(), ⟨9, 90⟩, ⟨9, 2⟩, ⟨9, 30⟩, ⟨9, 4⟩, ⟨9, 0⟩⟩ : asset_dynamic_data_object Unit).restore
      ⟨(), ⟨100, 5⟩, 1, 20, 3⟩).confidential_supply = ⟨5, 3⟩ ∧
    ((⟨⟨9, ⟨60, 1, 0, 8⟩, [], ⟨0, 0, 0, 0⟩, 0, 0, false, 0⟩, ⟨8, 70⟩, ⟨9, 80⟩⟩ :
        asset_bitasset_data_object Nat).restore
      ⟨⟨5, ⟨60, 1, 0, 4⟩, [], ⟨0, 0, 0, 0⟩, 0, 0, false, 0⟩, 71, 81⟩).settlement_fund = ⟨4, 71⟩ ∧
    ((⟨⟨9, ⟨60, 1, 0, 8⟩, [], ⟨0, 0, 0, 0⟩, 0, 0, false, 0⟩, ⟨8, 70⟩, ⟨9, 80⟩⟩ :
        asset_bitasset_data_object Nat).restore
      ⟨⟨5, ⟨60, 1, 0, 4⟩, [], ⟨0, 0, 0, 0⟩, 0, 0, false, 0⟩, 71, 81⟩).total_debt = ⟨5, 81⟩ := by
  decide

/-- C19 (asset tag on restore), amended: the asset id attached to a rehydrated amount is
taken from the snapshot, for every target and snapshot: the id of the snapshot's
`current_supply` for `accumulated_fees` and `confidential_supply`, the snapshot's
`options.short_backing_asset` for `settlement_fund` and the snapshot's `asset_id` for
`total_debt`; it is the id found in the target whenever target and snapshot agree on it. -/
theorem restore_tag_source (Master P : Type) (y : asset_dynamic_data_object Master)
    (b : asset_dynamic_data_backup Master) (z : asset_bitasset_data_object P)
    (c : asset_bitasset_data_backup P) :
    (y.restore b).accumulated_fees.asset_id = b.current_supply.asset_id ∧
    (y.restore b).confidential_supply.asset_id = b.current_supply.asset_id ∧
    (z.restore c).settlement_fund.asset_id = c.master.options.short_backing_asset ∧
    (z.restore c).total_debt.asset_id = c.master.asset_id ∧
    (b.current_supply.asset_id = y.current_supply.asset_id →
      (y.restore b).accumulated_fees.asset_id = y.current_supply.asset_id ∧
      (y.restore b).confidential_supply.asset_id = y.current_supply.asset_id) ∧
    (c.master.options.short_backing_asset = z.master.options.short_backing_asset →
      (z.restore c).settlement_fund.asset_id = z.master.options.short_backing_asset) ∧
    (c.master.asset_id = z.master.asset_id →
      (z.restore c).total_debt.asset_id = z.master.asset_id) := by
  refine ⟨rfl, rfl, rfl, rfl, ?_, ?_, ?_⟩
  · intro h
    exact ⟨h, h⟩
  · intro h
    exact h
  · intro h
    exact h

/-- Witness for C19: a snapshot of asset 5 restored over a later state of the same asset. -/
theorem restore_tag_source_witness :
    ((⟨(), ⟨5, 90⟩, ⟨5, 2⟩, ⟨0, 30⟩, ⟨5, 4⟩, ⟨0, 0⟩⟩ : asset_dynamic_data_object Unit).restore
      ⟨(), ⟨100, 5⟩, 1, 20, 3⟩).accumulated_fees.asset_id = 5 :=
  ((restore_tag_source Unit Nat ⟨(), ⟨5, 90⟩, ⟨5, 2⟩, ⟨0, 30⟩, ⟨5, 4⟩, ⟨0, 0⟩⟩
    ⟨(), ⟨100, 5⟩, 1, 20, 3⟩
    ⟨⟨5, ⟨60, 1, 0, 4⟩, [], ⟨0, 0, 0, 0⟩, 0, 0, false, 0⟩, ⟨4, 70⟩, ⟨5, 80⟩⟩
    ⟨⟨5, ⟨60, 1, 0, 4⟩, [], ⟨0, 0, 0, 0⟩, 0, 0, false, 0⟩, 71, 81⟩).2.2.2.2.1 rfl).1

/-- C20, as stated, fails: a state of asset 5 whose `borrowed_fees` hold 7 is backed up, the
amount changes to 9, and after restore `borrowed_fees` still hold 9, while the four other
amounts are back. -/
theorem restore_borrowed_fees_counterexample :
    ((⟨(), ⟨5, 100⟩, ⟨5, 1⟩, ⟨0, 20⟩, ⟨5, 3⟩, ⟨0, 9⟩⟩ : asset_dynamic_data_object Unit).restore
      (asset_dynamic_data_object.backup
        ⟨(), ⟨5, 100⟩, ⟨5, 1⟩, ⟨0, 20⟩, ⟨5, 3⟩, ⟨0, 7⟩⟩)).borrowed_fees = ⟨0, 9⟩ ∧
    ((⟨(), ⟨5, 100⟩, ⟨5, 1⟩, ⟨0, 20⟩, ⟨5, 3⟩, ⟨0, 9⟩⟩ : asset_dynamic_data_object Unit).restore
      (asset_dynamic_data_object.backup
        ⟨(), ⟨5, 100⟩, ⟨5, 1⟩, ⟨0, 20⟩, ⟨5, 3⟩, ⟨0, 7⟩⟩)).borrowed_fees ≠
      (⟨(), ⟨5, 100⟩, ⟨5, 1⟩, ⟨0, 20⟩, ⟨5, 3⟩, ⟨0, 7⟩⟩ :
        asset_dynamic_data_object Unit).borrowed_fees := by
  decide

/-- C20 (field-complete snapshots), amended: of the fields reflected beyond the base type,
`current_supply` is re-established whole and `accumulated_fees`, `fee_pool` and
`confidential_supply` with the amounts they had in `x`, and whole when `x` tagged them with
the asset of `current_supply`, resp. the default asset for `fee_pool`; `borrowed_fees` is
not part of the snapshot: `backup` does not depend on it and `restore` and `clear` leave it
as it is. -/
theorem restore_reflected_fields (Master : Type) (x y : asset_dynamic_data_object Master) :
    (y.restore x.backup).current_supply = x.current_supply ∧
    (y.restore x.backup).accumulated_fees.amount = x.accumulated_fees.amount ∧
    (y.restore x.backup).fee_pool.amount = x.fee_pool.amount ∧
    (y.restore x.backup).confidential_supply.amount = x.confidential_supply.amount ∧
    (x.accumulated_fees.asset_id = x.current_supply.asset_id → x.fee_pool.asset_id = 0 →
      x.confidential_supply.asset_id = x.current_supply.asset_id →
      (y.restore x.backup).accumulated_fees = x.accumulated_fees ∧
      (y.restore x.backup).fee_pool = x.fee_pool ∧
      (y.restore x.backup).confidential_supply = x.confidential_supply) ∧
    (y.restore x.backup).borrowed_fees = y.borrowed_fees ∧
    (∀ v : stored_value, asset_dynamic_data_object.backup { x with borrowed_fees := v } =
      x.backup) ∧
    x.clear.borrowed_fees = x.borrowed_fees := by
  refine ⟨rfl, rfl, rfl, rfl, ?_, rfl, fun _ => rfl, rfl⟩
  intro h1 h2 h3
  refine ⟨?_, ?_, ?_⟩
  · show (⟨x.current_supply.asset_id, x.accumulated_fees.amount⟩ : stored_value) = _
    rw [← h1]
  · show (⟨0, x.fee_pool.amount⟩ : stored_value) = _
    rw [← h2]
  · show (⟨x.current_supply.asset_id, x.confidential_supply.amount⟩ : stored_value) = _
    rw [← h3]

/-- Witness for C20: a state of asset 5 with its fee pool in the default asset, restored
over a later state in which every amount has changed. -/
theorem restore_reflected_fields_witness :
    ((⟨(), ⟨5, 90⟩, ⟨5, 2⟩, ⟨0, 30⟩, ⟨5, 4⟩, ⟨0, 9⟩⟩ : asset_dynamic_data_object Unit).restore
      (asset_dynamic_data_object.backup
        ⟨(), ⟨5, 100⟩, ⟨5, 1⟩, ⟨0, 20⟩, ⟨5, 3⟩, ⟨0, 7⟩⟩)).confidential_supply = ⟨5, 3⟩ :=
  ((restore_reflected_fields Unit ⟨(), ⟨5, 100⟩, ⟨5, 1⟩, ⟨0, 20⟩, ⟨5, 3⟩, ⟨0, 7⟩⟩
    ⟨(), ⟨5, 90⟩, ⟨5, 2⟩, ⟨0, 30⟩, ⟨5, 4⟩, ⟨0, 9⟩⟩).2.2.2.2.1 rfl rfl rfl).2.2

/-! ## The supply bound when the sign is leading -/

theorem stoll_nonneg (t : List Char) (ht : '-' ∉ t) (v : Int) (h : stoll t = some v) : 0 ≤ v := by
  have hhead : (t.dropWhile isspace).head? ≠ some '-' := by
    intro hh
    have h1 : '-' ∈ t.dropWhile isspace := List.mem_of_mem_head? (by rw [hh]; rfl)
    exact ht ((List.dropWhile_sublist isspace).subset h1)
  unfold stoll at h
  simp only [hhead, decide_False, Bool.false_or, Bool.false_eq_true, if_false] at h
  split_ifs at h <;>
  · have e := Option.some.inj h
    rw [← e]
    exact Int.natCast_nonneg _

theorem add_integer_part_nonneg (scaled : Int) (hsc : 0 ≤ scaled) (lhs : List Char)
    (hl : '-' ∉ lhs) (v : Int) (h : add_integer_part 0 scaled lhs = some v) : 0 ≤ v := by
  unfold add_integer_part at h
  by_cases he : lhs.isEmpty = true
  · rw [if_pos he] at h
    have e := Option.some.inj h
    omega
  · rw [if_neg he] at h
    simp only [Option.bind_eq_bind, Option.bind_eq_some] at h
    obtain ⟨l, hl1, m, hm, hadd⟩ := h
    have hl0 := stoll_nonneg lhs hl l hl1
    simp only [safe_mul] at hm
    split_ifs at hm
    have em := Option.some.inj hm
    simp only [safe_add] at hadd
    split_ifs at hadd
    have ea := Option.some.inj hadd
    have : 0 ≤ l * scaled := mul_nonneg hl0 hsc
    omega

theorem add_fraction_nonneg (sat scaled : Int) (h0 : 0 ≤ sat) (s : List Char) (k : Nat)
    (hr : '-' ∉ s.drop (k + 1)) (v : Int)
    (h : add_fraction sat scaled s (some k) = some v) : 0 ≤ v := by
  unfold add_fraction at h
  simp only [Option.bind_eq_bind, Option.bind_eq_some] at h
  obtain ⟨rhs, hrhs, h⟩ := h
  have erhs : rhs = s.drop (k + 1) := by
    simp only [substr] at hrhs
    split_ifs at hrhs
    exact (Option.some.inj hrhs).symm
  split_ifs at h with h1 h2
  · have e := Option.some.inj h
    omega
  · simp only [Option.bind_eq_bind, Option.bind_eq_some] at h
    obtain ⟨r, hr1, hadd⟩ := h
    have hnot : '-' ∉ rhs ++ List.replicate
        (((to_string scaled).drop 1).length - rhs.length) '0' := by
      intro hm
      rcases List.mem_append.mp hm with hm | hm
      · rw [erhs] at hm; exact hr hm
      · have := (List.mem_replicate.mp hm).2
        exact absurd this (by decide)
    have hr0 := stoll_nonneg _ hnot r hr1
    simp only [safe_add] at hadd
    split_ifs at hadd
    have ea := Option.some.inj hadd
    omega

theorem find_some_of_mem (s : List Char) (c : Char) (h : c ∈ s) : ∃ k, find s c = some k := by
  induction s with
  | nil => exact absurd h (List.not_mem_nil _)
  | cons d ds ih =>
    rw [find_cons]
    by_cases hd : d = c
    · exact ⟨0, by rw [if_pos hd]⟩
    · rcases List.mem_cons.mp h with h | h
      · exact absurd h.symm hd
      · obtain ⟨k, hk⟩ := ih h
        exact ⟨k + 1, by rw [if_neg hd, hk]; rfl⟩

theorem amount_bounded_of_leading_sign (M : Int) (o : asset_object) (s : List Char) (a : asset)
    (hs : '-' ∉ s.drop 1) (h : amount_from_string M o s = some a) : |a.amount| ≤ M := by
  unfold amount_from_string at h
  cases hscan : scan_chars s false false with
  | none => rw [hscan] at h; exact absurd h (by simp)
  | some r =>
    obtain ⟨n', d'⟩ := r
    rw [hscan] at h
    simp only [Option.bind_eq_bind, Option.some_bind] at h
    cases hsc : scaled_precision o.precision with
    | none => rw [hsc] at h; exact absurd h (by simp)
    | some scaled =>
      rw [hsc] at h
      simp only [Option.some_bind] at h
      cases hlhs : substr s (if n' = true then 1 else 0) (find s '.') with
      | none => rw [hlhs] at h; exact absurd h (by simp)
      | some lhs =>
        rw [hlhs] at h
        simp only [Option.some_bind] at h
        cases hsat1 : add_integer_part 0 scaled lhs with
        | none => rw [hsat1] at h; exact absurd h (by simp)
        | some sat1 =>
          rw [hsat1] at h
          simp only [Option.some_bind] at h
          obtain ⟨-, -, -, hn, hd⟩ := scan_chars_some _ _ _ _ _ hscan
          simp only [Bool.false_or] at hn hd
          have hscaled : 0 ≤ scaled := by
            simp only [scaled_precision] at hsc
            split_ifs at hsc
            rw [← Option.some.inj hsc]
            positivity
          have hdrop : ∀ j, 1 ≤ j → '-' ∉ s.drop j := by
            intro j hj hm
            have e : s.drop j = (s.drop 1).drop (j - 1) := by
              rw [List.drop_drop]; congr 1; omega
            rw [e] at hm
            exact hs ((List.drop_sublist _ _).subset hm)
          have hbase : '-' ∉ s.drop (if n' = true then 1 else 0) := by
            by_cases hn' : n' = true
            · rw [if_pos hn']; exact hs
            · rw [if_neg hn']
              have : decide ('-' ∈ s) = false := by
                rw [← hn]; simpa using hn'
              simpa using this
          have hlhs' : '-' ∉ lhs := by
            generalize (if n' = true then 1 else 0) = j at hlhs hbase
            simp only [substr] at hlhs
            by_cases hlen : s.length < j
            · rw [if_pos hlen] at hlhs; exact absurd hlhs (by simp)
            · rw [if_neg hlen] at hlhs
              cases hdp : find s '.' with
              | none =>
                rw [hdp] at hlhs
                rw [← Option.some.inj hlhs]
                exact hbase
              | some k =>
                rw [hdp] at hlhs
                rw [← Option.some.inj hlhs]
                exact fun hm => hbase ((List.take_sublist _ _).subset hm)
          have h1 := add_integer_part_nonneg scaled hscaled lhs hlhs' sat1 hsat1
          have hfinish : ∀ sat2 : Int, 0 ≤ sat2 →
              (if sat2 ≤ M then
                if n' = true then
                  (safe_mul sat2 (-1)).bind fun y => some ({ amount := y, asset_id := o.id } : asset)
                else some { amount := sat2, asset_id := o.id }
              else none) = some a → |a.amount| ≤ M := by
            intro sat2 h2 hfin
            by_cases hle : sat2 ≤ M
            · rw [if_pos hle] at hfin
              by_cases hn' : n' = true
              · rw [if_pos hn'] at hfin
                simp only [safe_mul] at hfin
                by_cases hin : in_int64 (sat2 * -1) = true
                · rw [if_pos hin] at hfin
                  simp only [Option.some_bind] at hfin
                  rw [← Option.some.inj hfin]
                  show |sat2 * -1| ≤ M
                  rw [show sat2 * -1 = -sat2 by ring, abs_neg, abs_of_nonneg h2]
                  exact hle
                · rw [if_neg hin] at hfin
                  exact absurd hfin (by simp)
              · rw [if_neg hn'] at hfin
                rw [← Option.some.inj hfin]
                show |sat2| ≤ M
                rw [abs_of_nonneg h2]
                exact hle
            · rw [if_neg hle] at hfin
              exact absurd hfin (by simp)
          by_cases hd' : d' = true
          · rw [if_pos hd'] at h
            have hmem : '.' ∈ s := by
              have : decide ('.' ∈ s) = true := by rw [← hd]; exact hd'
              simpa using this
            obtain ⟨k, hk⟩ := find_some_of_mem s '.' hmem
            rw [hk] at h
            cases hsat2 : add_fraction sat1 scaled s (some k) with
            | none => rw [hsat2] at h; exact absurd h (by simp)
            | some sat2 =>
              rw [hsat2] at h
              simp only [Option.some_bind] at h
              exact hfinish sat2
                (add_fraction_nonneg sat1 scaled h1 s k (hdrop (k + 1) (by omega)) sat2 hsat2) h
          · rw [if_neg hd'] at h
            exact hfinish sat1 h1 h

end graphene.chain
